import Mathlib

/-!
Verification of the MixFlow compatibility model and ordering engine.

The definitions below are a shallow embedding of the TypeScript source:
the Camelot key-compatibility algebra (`camelot.ts`) and the track
ordering engine (`ordering.ts`).  Tempo values (JS `number`) are
modelled as rationals; the JS `null` of optional fields is modelled
with `Option`; the `Infinity` sentinel of a transition's BPM difference
is modelled as `Option.none`.  Source loops whose bound is not
structural are written with an explicit fuel argument instantiated, at
every call site, to a value large enough that the fuel never runs out
(proved in the lemmas below), so all definitions stay executable.
-/

namespace MixFlow

/-- The two rings of the Camelot wheel: `A` (inner, minor) and `B` (outer, major). -/
inductive CamelotLetter where
  | A
  | B
deriving DecidableEq, Repr

/-- A Camelot key as decomposed by `parseCamelotKey` in the source: a wheel
number (1–12 for the 24 valid keys) and a ring letter, e.g. `8B`. -/
structure Camelot where
  number : ℤ
  letter : CamelotLetter
deriving DecidableEq, Repr

/-- The 24 valid Camelot keys are those whose number lies in 1..12. -/
def Camelot.valid (k : Camelot) : Prop :=
  1 ≤ k.number ∧ k.number ≤ 12

instance (k : Camelot) : Decidable k.valid := by
  unfold Camelot.valid; infer_instance

/-- `circularDistance` from the source: `min(|a - b|, 12 - |a - b|)`. -/
def circularDistance (a b : ℤ) : ℤ :=
  min ((a - b).natAbs : ℤ) (12 - ((a - b).natAbs : ℤ))

/-- `getCamelotDistance` from the source. -/
def getCamelotDistance (keyA keyB : Camelot) : ℤ :=
  let numberDistance := circularDistance keyA.number keyB.number
  if numberDistance = 0 ∧ keyA.letter ≠ keyB.letter then 1
  else if keyA.letter ≠ keyB.letter then numberDistance + 1
  else numberDistance

/-- The key distance as the spec words it: with `d` the minimum circular
distance of the numbers on a 12-point ring, return 1 if `d = 0` and the
letters differ, `d + 1` if the letters differ and `d ≠ 0`, else `d`. -/
def specCamelotDistance (A B : Camelot) : ℤ :=
  let d := min ((A.number - B.number).natAbs : ℤ) (12 - ((A.number - B.number).natAbs : ℤ))
  if d = 0 ∧ A.letter ≠ B.letter then 1
  else if A.letter ≠ B.letter ∧ d ≠ 0 then d + 1
  else d

/-- The four key-relationship classes of the source. -/
inductive KeyCompatibilityType where
  | same
  | relative
  | adjacent
  | incompatible
deriving DecidableEq, Repr

/-- `getKeyCompatibilityType` from the source. -/
def getKeyCompatibilityType (keyA keyB : Camelot) : KeyCompatibilityType :=
  if keyA.number = keyB.number ∧ keyA.letter = keyB.letter then .same
  else if keyA.number = keyB.number ∧ keyA.letter ≠ keyB.letter then .relative
  else if circularDistance keyA.number keyB.number = 1 ∧ keyA.letter = keyB.letter then .adjacent
  else .incompatible

/-- `isCamelotCompatible` from the source: any classification other than
`incompatible`. -/
def isCamelotCompatible (keyA keyB : Camelot) : Bool :=
  getKeyCompatibilityType keyA keyB ≠ KeyCompatibilityType.incompatible

/-- `CAMELOT_MAP` from the source: the fixed musical-key → Camelot lookup
table, in the source's insertion order. -/
def CAMELOT_MAP : List (String × Camelot) :=
  [("G# minor", ⟨1, .A⟩), ("Ab minor", ⟨1, .A⟩), ("G#m", ⟨1, .A⟩), ("Abm", ⟨1, .A⟩),
   ("B major", ⟨1, .B⟩), ("B", ⟨1, .B⟩),
   ("D# minor", ⟨2, .A⟩), ("Eb minor", ⟨2, .A⟩), ("D#m", ⟨2, .A⟩), ("Ebm", ⟨2, .A⟩),
   ("F# major", ⟨2, .B⟩), ("Gb major", ⟨2, .B⟩), ("F#", ⟨2, .B⟩), ("Gb", ⟨2, .B⟩),
   ("A# minor", ⟨3, .A⟩), ("Bb minor", ⟨3, .A⟩), ("A#m", ⟨3, .A⟩), ("Bbm", ⟨3, .A⟩),
   ("C# major", ⟨3, .B⟩), ("Db major", ⟨3, .B⟩), ("C#", ⟨3, .B⟩), ("Db", ⟨3, .B⟩),
   ("F minor", ⟨4, .A⟩), ("Fm", ⟨4, .A⟩),
   ("G# major", ⟨4, .B⟩), ("Ab major", ⟨4, .B⟩), ("G#", ⟨4, .B⟩), ("Ab", ⟨4, .B⟩),
   ("C minor", ⟨5, .A⟩), ("Cm", ⟨5, .A⟩),
   ("D# major", ⟨5, .B⟩), ("Eb major", ⟨5, .B⟩), ("D#", ⟨5, .B⟩), ("Eb", ⟨5, .B⟩),
   ("G minor", ⟨6, .A⟩), ("Gm", ⟨6, .A⟩),
   ("A# major", ⟨6, .B⟩), ("Bb major", ⟨6, .B⟩), ("A#", ⟨6, .B⟩), ("Bb", ⟨6, .B⟩),
   ("D minor", ⟨7, .A⟩), ("Dm", ⟨7, .A⟩),
   ("F major", ⟨7, .B⟩), ("F", ⟨7, .B⟩),
   ("A minor", ⟨8, .A⟩), ("Am", ⟨8, .A⟩),
   ("C major", ⟨8, .B⟩), ("C", ⟨8, .B⟩),
   ("E minor", ⟨9, .A⟩), ("Em", ⟨9, .A⟩),
   ("G major", ⟨9, .B⟩), ("G", ⟨9, .B⟩),
   ("B minor", ⟨10, .A⟩), ("Bm", ⟨10, .A⟩),
   ("D major", ⟨10, .B⟩), ("D", ⟨10, .B⟩),
   ("F# minor", ⟨11, .A⟩), ("Gb minor", ⟨11, .A⟩), ("F#m", ⟨11, .A⟩), ("Gbm", ⟨11, .A⟩),
   ("A major", ⟨11, .B⟩), ("A", ⟨11, .B⟩),
   ("C# minor", ⟨12, .A⟩), ("Db minor", ⟨12, .A⟩), ("C#m", ⟨12, .A⟩), ("Dbm", ⟨12, .A⟩),
   ("E major", ⟨12, .B⟩), ("E", ⟨12, .B⟩)]

/-- Lowercasing a string, character by character (the behaviour of the
source's `toLowerCase()` on the ASCII labels involved). -/
def strLower (s : String) : String :=
  ⟨s.data.map Char.toLower⟩

/-- Trimming surrounding whitespace from a string (the behaviour of the
source's `trim()`). -/
def strTrim (s : String) : String :=
  ⟨((s.data.dropWhile Char.isWhitespace).reverse.dropWhile Char.isWhitespace).reverse⟩

/-- Exact-key record lookup (`CAMELOT_MAP[key]` in the source; the table's
keys are pairwise distinct, so first-match models record access). -/
def lookupExact (key : String) : Option Camelot :=
  (CAMELOT_MAP.find? (fun p => p.1 == key)).map Prod.snd

/-- `musicalKeyToCamelot` from the source: direct lookup, then lookup of
the trimmed key, then a scan comparing lowercased keys. -/
def musicalKeyToCamelot (key : String) : Option Camelot :=
  match lookupExact key with
  | some direct => some direct
  | none =>
    let normalized := strTrim key
    match lookupExact normalized with
    | some lookup => some lookup
    | none =>
      let lower := strLower normalized
      (CAMELOT_MAP.find? (fun p => strLower p.1 == lower)).map Prod.snd

/-- Key resolution as the spec words it: look the label up in the fixed
table after trimming surrounding whitespace and ignoring case; unmapped
labels yield no mapping. -/
def specResolve (key : String) : Option Camelot :=
  (CAMELOT_MAP.find? (fun p => strLower p.1 == strLower (strTrim key))).map Prod.snd

/-- A track as the ordering engine sees it.  Display-only fields
(filename, duration, status, …) are inert to the algorithm and omitted;
`bpm = none` / `camelotKey = none` model the source's `null`s. -/
structure Track where
  id : String
  bpm : Option ℚ
  camelotKey : Option Camelot
deriving DecidableEq, Repr

/-- `MAX_BPM_DIFFERENCE` from the source. -/
def MAX_BPM_DIFFERENCE : ℚ := 20

/-- `isTrackAnalyzed` from the source: both BPM and Camelot key present. -/
def isTrackAnalyzed (t : Track) : Bool :=
  t.bpm.isSome && t.camelotKey.isSome

/-- The source's non-null assertion `track.bpm!` (only evaluated behind
`isTrackAnalyzed` guards). -/
def bpmValue (t : Track) : ℚ :=
  t.bpm.getD 0

/-- The source's non-null assertion `track.camelotKey!` (only evaluated
behind `isTrackAnalyzed` guards). -/
def keyValue (t : Track) : Camelot :=
  t.camelotKey.getD ⟨0, .A⟩

/-- `Math.abs` on rationals, written so it evaluates by kernel reduction. -/
def absQ (q : ℚ) : ℚ :=
  if q < 0 then -q else q

/-- Absolute BPM difference between two tracks. -/
def bpmDiff (a b : Track) : ℚ :=
  absQ (bpmValue a - bpmValue b)

/-- `isTransitionCompatible` from the source. -/
def isTransitionCompatible (trackA trackB : Track) : Bool :=
  if ¬ (isTrackAnalyzed trackA && isTrackAnalyzed trackB) then false
  else if bpmDiff trackA trackB > MAX_BPM_DIFFERENCE then false
  else isCamelotCompatible (keyValue trackA) (keyValue trackB)

/-- The transition quality tiers of the source. -/
inductive TransitionQuality where
  | poor
  | fair
  | good
  | excellent
deriving DecidableEq, Repr

/-- `calculateTransitionQuality` from the source. -/
def calculateTransitionQuality (trackA trackB : Track) : TransitionQuality :=
  if ¬ (isTrackAnalyzed trackA && isTrackAnalyzed trackB) then .poor
  else
    let keyCompatibility := getKeyCompatibilityType (keyValue trackA) (keyValue trackB)
    if keyCompatibility = .incompatible then .poor
    else if bpmDiff trackA trackB > MAX_BPM_DIFFERENCE then .poor
    else if bpmDiff trackA trackB < 5 then .excellent
    else if bpmDiff trackA trackB < 10 then .good
    else .fair

/-- The transition quality tiers as the spec words them, with the tempo
difference `d` infinite (`none`) and the classification `incompatible`
whenever either endpoint is unanalyzed. -/
def specQuality (trackA trackB : Track) : TransitionQuality :=
  let analyzed := isTrackAnalyzed trackA && isTrackAnalyzed trackB
  let c := if analyzed then getKeyCompatibilityType (keyValue trackA) (keyValue trackB)
           else .incompatible
  let d : Option ℚ := if analyzed then some (bpmDiff trackA trackB) else none
  if c = .incompatible then .poor
  else
    match d with
    | none => .poor
    | some q =>
      if q > 20 then .poor
      else if q < 5 then .excellent
      else if 5 ≤ q ∧ q < 10 then .good
      else .fair

/-- A transition record from the source; `bpmDifference = none` models the
`Infinity` stored for an unanalyzed endpoint. -/
structure Transition where
  fromTrack : Track
  toTrack : Track
  bpmDifference : Option ℚ
  keyCompatibility : KeyCompatibilityType
  quality : TransitionQuality
deriving DecidableEq, Repr

/-- `createTransition` from the source. -/
def createTransition (fromTrack toTrack : Track) : Transition :=
  { fromTrack := fromTrack
    toTrack := toTrack
    bpmDifference :=
      if isTrackAnalyzed fromTrack && isTrackAnalyzed toTrack
      then some (bpmDiff fromTrack toTrack) else none
    keyCompatibility :=
      if isTrackAnalyzed fromTrack && isTrackAnalyzed toTrack
      then getKeyCompatibilityType (keyValue fromTrack) (keyValue toTrack)
      else .incompatible
    quality := calculateTransitionQuality fromTrack toTrack }

/-- The source's greedy candidate selection: start from `candidates[0]` and
replace the running best only on a strictly smaller BPM difference, so the
first minimum encountered wins. -/
def pickBest (current : Track) (c : Track) (cs : List Track) : Track :=
  cs.foldl (fun best t => if bpmDiff current t < bpmDiff current best then t else best) c

/-- The `while (remaining.size > 0)` loop of `greedyPath`.  `fuel` bounds
the number of iterations; every call site passes `remaining.length`, which
is enough because each iteration removes the chosen track from
`remaining`. -/
def greedyLoop : ℕ → Track → List Track → List Track
  | 0, _, _ => []
  | fuel + 1, current, remaining =>
    match remaining.filter (fun t => isTransitionCompatible current t) with
    | [] => []
    | c :: cs =>
      let best := pickBest current c cs
      best :: greedyLoop fuel best (remaining.erase best)

/-- `greedyPath` from the source. -/
def greedyPath (startTrack : Track) (allTracks : List Track) : List Track :=
  let remaining := allTracks.filter (fun t => ¬ t.id = startTrack.id)
  startTrack :: greedyLoop remaining.length startTrack remaining

/-- `calculatePathScore` from the source: sum of squared consecutive BPM
differences. -/
def calculatePathScore : List Track → ℚ
  | a :: b :: rest => bpmDiff a b * bpmDiff a b + calculatePathScore (b :: rest)
  | _ => 0

/-- The path score as the spec words it: the sum over consecutive pairs of
the squared tempo difference. -/
def specPathScore (path : List Track) : ℚ :=
  ((path.zip path.tail).map (fun pr => (bpmValue pr.1 - bpmValue pr.2) ^ 2)).sum

/-- The consecutive-pair transition records built by `findOptimalOrder`. -/
def buildTransitions : List Track → List Transition
  | a :: b :: rest => createTransition a b :: buildTransitions (b :: rest)
  | _ => []

/-- The mutable state of `findOptimalOrder`'s multi-seed loop:
`bestCompletePath` paired with its cached `bestCompleteScore` (the source
initializes the score to `Infinity`, modelled by `none`), and
`bestPartialPath`. -/
structure SearchState where
  bestComplete : Option (List Track × ℚ)
  bestPartial : List Track
deriving DecidableEq, Repr

/-- One iteration of the source's multi-seed loop body, given the greedy
path produced by the current seed. -/
def searchStep (analyzedCount : ℕ) (st : SearchState) (path : List Track) : SearchState :=
  if path.length = analyzedCount then
    match st.bestComplete with
    | none => { st with bestComplete := some (path, calculatePathScore path) }
    | some (_, bestScore) =>
      if calculatePathScore path < bestScore then
        { st with bestComplete := some (path, calculatePathScore path) }
      else st
  else if path.length > st.bestPartial.length then
    { st with bestPartial := path }
  else if path.length = st.bestPartial.length ∧ path.length > 0 then
    if calculatePathScore path < calculatePathScore st.bestPartial then
      { st with bestPartial := path }
    else st
  else st

/-- The complete-path half of the loop body of `searchStep`: adopt the path
when no complete path is stored yet or when its score is strictly lower. -/
def completeStep (acc : Option (List Track × ℚ)) (path : List Track) :
    Option (List Track × ℚ) :=
  match acc with
  | none => some (path, calculatePathScore path)
  | some (_, bestScore) =>
    if calculatePathScore path < bestScore then some (path, calculatePathScore path) else acc

/-- The partial-path half of the loop body of `searchStep`: adopt the path
when strictly longer, or on equal (positive) length and strictly lower
score. -/
def partialStep (best path : List Track) : List Track :=
  if path.length > best.length then path
  else if path.length = best.length ∧ path.length > 0 then
    if calculatePathScore path < calculatePathScore best then path else best
  else best

/-- The ordering result of the source (`orphanTracks` is the rejected set). -/
structure OrderingResult where
  orderedTracks : List Track
  orphanTracks : List Track
  transitions : List Transition
  isComplete : Bool
deriving DecidableEq, Repr

/-- `findOptimalOrder` from the source. -/
def findOptimalOrder (tracks : List Track) : OrderingResult :=
  let analyzedTracks := tracks.filter isTrackAnalyzed
  let unanalyzedTracks := tracks.filter (fun t => ¬ isTrackAnalyzed t)
  if analyzedTracks.length = 0 then
    { orderedTracks := []
      orphanTracks := unanalyzedTracks
      transitions := []
      isComplete := unanalyzedTracks.length = 0 }
  else if analyzedTracks.length = 1 then
    { orderedTracks := analyzedTracks
      orphanTracks := unanalyzedTracks
      transitions := []
      isComplete := unanalyzedTracks.length = 0 }
  else
    let st := analyzedTracks.foldl
      (fun st startTrack =>
        searchStep analyzedTracks.length st (greedyPath startTrack analyzedTracks))
      ⟨none, []⟩
    let orderedTracks :=
      match st.bestComplete with
      | some (p, _) => p
      | none => st.bestPartial
    let orderedIds := orderedTracks.map (fun t => t.id)
    let orphanTracks :=
      analyzedTracks.filter (fun t => ¬ t.id ∈ orderedIds) ++ unanalyzedTracks
    { orderedTracks := orderedTracks
      orphanTracks := orphanTracks
      transitions := buildTransitions orderedTracks
      isComplete := st.bestComplete.isSome && unanalyzedTracks.length = 0 }

/-- The body of `findCompatibleGroups`' inner `for` loop: skip assigned
candidates, otherwise add the candidate when it is compatible with some
member of the (live, growing) group.  The state is
`(group, assigned ids, changed)`. -/
def passStep (st : List Track × List String × Bool) (candidate : Track) :
    List Track × List String × Bool :=
  if candidate.id ∈ st.2.1 then st
  else if st.1.any (fun groupTrack => isTransitionCompatible groupTrack candidate) then
    (st.1 ++ [candidate], candidate.id :: st.2.1, true)
  else st

/-- One full pass of `findCompatibleGroups`' inner `for` loop over all
analyzed tracks. -/
def passOnce (analyzedTracks : List Track) (group : List Track) (assigned : List String) :
    List Track × List String × Bool :=
  analyzedTracks.foldl passStep (group, assigned, false)

/-- The `while (changed)` loop of `findCompatibleGroups`.  Every call site
passes `analyzedTracks.length + 1` fuel, which is enough because each
changed pass assigns at least one more track. -/
def expandLoop : ℕ → List Track → List Track → List String → List Track × List String
  | 0, _, group, assigned => (group, assigned)
  | fuel + 1, analyzedTracks, group, assigned =>
    match passOnce analyzedTracks group assigned with
    | (g, asg, changed) =>
      if changed then expandLoop fuel analyzedTracks g asg else (g, asg)

/-- The body of `findCompatibleGroups`' outer `for` loop: skip assigned
tracks, otherwise grow a new group from the track as seed. -/
def groupStep (analyzedTracks : List Track) (st : List (List Track) × List String)
    (track : Track) : List (List Track) × List String :=
  if track.id ∈ st.2 then st
  else
    match expandLoop (analyzedTracks.length + 1) analyzedTracks [track]
        (track.id :: st.2) with
    | (group, assigned) => (st.1 ++ [group], assigned)

/-- Count of analyzed tracks whose id is not yet assigned (the measure
showing the fuel of `expandLoop` suffices). -/
def unassignedCount (analyzedTracks : List Track) (assigned : List String) : ℕ :=
  (analyzedTracks.filter (fun t => ¬ t.id ∈ assigned)).length

/-- `findCompatibleGroups` from the source. -/
def findCompatibleGroups (tracks : List Track) : List (List Track) :=
  let analyzedTracks := tracks.filter isTrackAnalyzed
  if analyzedTracks.length = 0 then []
  else
    let st := analyzedTracks.foldl (groupStep analyzedTracks) ([], [])
    (st.1).mergeSort (fun a b => b.length ≤ a.length)

/-- Modelled from the claim's reference algorithm: among the unused
analyzed tracks, those forming a legal transition from the path's tail. -/
def refCandidates (analyzedTracks path : List Track) (tail : Track) : List Track :=
  (analyzedTracks.filter (fun t => ¬ t ∈ path)).filter
    (fun t => isTransitionCompatible tail t)

/-- Modelled from the claim's reference algorithm: among the candidates, the
first one (in input order) attaining the smallest BPM difference. -/
def refPick (current : Track) (candidates : List Track) : Option Track :=
  candidates.find? (fun t => candidates.all (fun u => bpmDiff current t ≤ bpmDiff current u))

/-- Modelled from the claim's reference algorithm: repeatedly append the
chosen candidate until a dead end.  `fuel` is `analyzedTracks.length` at
the call site, enough since each step uses up an unused track. -/
def refGreedyAux : ℕ → List Track → List Track → Track → List Track
  | 0, _, path, _ => path
  | fuel + 1, analyzedTracks, path, current =>
    match refPick current (refCandidates analyzedTracks path current) with
    | none => path
    | some best => refGreedyAux fuel analyzedTracks (path ++ [best]) best

/-- Modelled from the claim's reference algorithm: the greedy path grown
from a seed. -/
def refGreedyPath (seed : Track) (analyzedTracks : List Track) : List Track :=
  refGreedyAux analyzedTracks.length analyzedTracks [seed] seed

/-- Modelled from the claim's reference algorithm: among seeds whose path
covers all analyzed tracks, the first path with the lowest score; if none,
the first longest partial path, equal lengths tied by lower score. -/
def refBestPath (analyzedTracks : List Track) : List Track :=
  let paths := analyzedTracks.map (fun seed => refGreedyPath seed analyzedTracks)
  let completes := paths.filter (fun p => analyzedTracks.all (fun t => t ∈ p))
  match completes.find? (fun p => completes.all
      (fun q => specPathScore p ≤ specPathScore q)) with
  | some p => p
  | none =>
    (paths.find? (fun p => paths.all (fun q =>
      q.length < p.length ∨ (q.length = p.length ∧ specPathScore p ≤ specPathScore q)))).getD []

/-- Invariant of `findCompatibleGroups`' outer loop state `(groups,
assigned)`: the assigned ids are exactly the ids of grouped tracks (with no
duplicates), groups are non-empty subsets of the analyzed tracks, closed
under the legal-transition relation, and internally connected under its
reflexive-transitive closure. -/
def GroupInv (A : List Track) (st : List (List Track) × List String) : Prop :=
  st.2.Nodup ∧
  (∀ x, x ∈ st.2 ↔ x ∈ st.1.flatten.map (fun t => t.id)) ∧
  (st.1.flatten.map (fun t => t.id)).Nodup ∧
  (∀ g ∈ st.1, g ≠ []) ∧
  (∀ t ∈ st.1.flatten, t ∈ A) ∧
  (∀ g ∈ st.1, ∀ t ∈ g, ∀ u ∈ A, isTransitionCompatible t u = true → u ∈ g) ∧
  (∀ g ∈ st.1, ∀ t ∈ g, ∀ u ∈ g,
    Relation.ReflTransGen (fun x y => isTransitionCompatible x y = true) t u)

/-! ## Lemmas and claim theorems -/

lemma absQ_eq_abs (q : ℚ) : absQ q = |q| := by
  unfold absQ
  split_ifs with h
  · exact (abs_of_neg h).symm
  · exact (abs_of_nonneg (not_lt.mp h)).symm

lemma bpmDiff_comm (a b : Track) : bpmDiff a b = bpmDiff b a := by
  unfold bpmDiff
  rw [absQ_eq_abs, absQ_eq_abs]
  exact abs_sub_comm _ _

lemma circularDistance_comm (a b : ℤ) : circularDistance a b = circularDistance b a := by
  unfold circularDistance
  have : (a - b).natAbs = (b - a).natAbs := by omega
  rw [this]

lemma getKeyCompatibilityType_comm (A B : Camelot) :
    getKeyCompatibilityType A B = getKeyCompatibilityType B A := by
  unfold getKeyCompatibilityType
  rw [circularDistance_comm]
  rcases A with ⟨a, la⟩
  rcases B with ⟨b, lb⟩
  cases la <;> cases lb <;> simp_all <;> split_ifs <;> simp_all <;> omega

/-- C8: `getCamelotDistance` agrees with the spec's distance formula on all
keys, and on the 24 valid keys it lies in `[0, 7]` and satisfies
`distance(A, A) = 0`. -/
theorem camelot_distance_spec (A B : Camelot) (hA : A.valid) (hB : B.valid) :
    getCamelotDistance A B = specCamelotDistance A B ∧
    0 ≤ getCamelotDistance A B ∧ getCamelotDistance A B ≤ 7 ∧
    getCamelotDistance A A = 0 := by
  rcases A with ⟨a, la⟩
  rcases B with ⟨b, lb⟩
  obtain ⟨hA1, hA2⟩ := hA
  obtain ⟨hB1, hB2⟩ := hB
  simp only [Camelot.valid] at hA1 hA2 hB1 hB2
  unfold getCamelotDistance specCamelotDistance circularDistance
  refine ⟨?_, ?_, ?_, ?_⟩ <;>
    · simp only [min_def]
      split_ifs <;> simp_all <;>
        first
          | omega
          | (rcases abs_cases (a - b) with ⟨h1, h2⟩ | ⟨h1, h2⟩ <;> omega)

/-- Closed instantiation of `camelot_distance_spec` at the valid keys 8B and 8A. -/
theorem camelot_distance_spec_witness :
    getCamelotDistance ⟨8, .B⟩ ⟨8, .A⟩ = specCamelotDistance ⟨8, .B⟩ ⟨8, .A⟩ ∧
    0 ≤ getCamelotDistance ⟨8, .B⟩ ⟨8, .A⟩ ∧ getCamelotDistance ⟨8, .B⟩ ⟨8, .A⟩ ≤ 7 ∧
    getCamelotDistance ⟨8, .B⟩ ⟨8, .B⟩ = 0 :=
  camelot_distance_spec ⟨8, .B⟩ ⟨8, .A⟩ (by decide) (by decide)

/-- C9: on valid keys, classification and compatibility are symmetric,
classification is reflexively `same`, `relative` holds exactly for equal
number with different letter, `adjacent` exactly for circular
number-distance 1 with equal letters, and the diagonal move 8B→9A is
incompatible. -/
theorem camelot_classification_spec (A B : Camelot) (hA : A.valid) (hB : B.valid) :
    getKeyCompatibilityType A B = getKeyCompatibilityType B A ∧
    isCamelotCompatible A B = isCamelotCompatible B A ∧
    getKeyCompatibilityType A A = .same ∧
    (getKeyCompatibilityType A B = .relative ↔
      A.number = B.number ∧ A.letter ≠ B.letter) ∧
    (getKeyCompatibilityType A B = .adjacent ↔
      circularDistance A.number B.number = 1 ∧ A.letter = B.letter) ∧
    getKeyCompatibilityType ⟨8, .B⟩ ⟨9, .A⟩ = .incompatible := by
  refine ⟨getKeyCompatibilityType_comm A B, ?_, ?_, ?_, ?_, by decide⟩
  · unfold isCamelotCompatible
    rw [getKeyCompatibilityType_comm]
  · unfold getKeyCompatibilityType
    simp
  · unfold getKeyCompatibilityType
    split_ifs <;> simp_all <;> omega
  · unfold getKeyCompatibilityType
    split_ifs with h1 h2 h3 <;> simp_all <;> unfold circularDistance <;> omega

/-- Closed instantiation of `camelot_classification_spec` at 8B and 9B. -/
theorem camelot_classification_spec_witness :
    getKeyCompatibilityType ⟨8, .B⟩ ⟨9, .B⟩ = getKeyCompatibilityType ⟨9, .B⟩ ⟨8, .B⟩ ∧
    isCamelotCompatible ⟨8, .B⟩ ⟨9, .B⟩ = isCamelotCompatible ⟨9, .B⟩ ⟨8, .B⟩ ∧
    getKeyCompatibilityType ⟨8, .B⟩ ⟨8, .B⟩ = .same ∧
    (getKeyCompatibilityType ⟨8, .B⟩ ⟨9, .B⟩ = .relative ↔
      (8 : ℤ) = 9 ∧ CamelotLetter.B ≠ CamelotLetter.B) ∧
    (getKeyCompatibilityType ⟨8, .B⟩ ⟨9, .B⟩ = .adjacent ↔
      circularDistance 8 9 = 1 ∧ CamelotLetter.B = CamelotLetter.B) ∧
    getKeyCompatibilityType ⟨8, .B⟩ ⟨9, .A⟩ = .incompatible :=
  camelot_classification_spec ⟨8, .B⟩ ⟨9, .B⟩ (by decide) (by decide)

lemma camelotMap_keys_trimmed : CAMELOT_MAP.all (fun p => strTrim p.1 == p.1) = true := by
  decide

lemma camelotMap_lower_nodup : (CAMELOT_MAP.map (fun p => strLower p.1)).Nodup := by
  decide

/-- If the lowercased keys of an association list are pairwise distinct,
an exact-key hit is also the (unique, hence first) case-insensitive hit. -/
lemma find?_lower_of_find?_exact {β : Type} (l : List (String × β)) (s : String)
    (e : String × β) (hnd : (l.map (fun p => strLower p.1)).Nodup)
    (h : l.find? (fun p => p.1 == s) = some e) :
    l.find? (fun p => strLower p.1 == strLower s) = some e := by
  induction l with
  | nil => simp at h
  | cons a tl ih =>
    rw [List.map_cons, List.nodup_cons] at hnd
    by_cases ha : a.1 = s
    · rw [List.find?_cons_of_pos _ (by simp [ha])] at h
      rw [List.find?_cons_of_pos _ (by simp [ha])]
      exact h
    · rw [List.find?_cons_of_neg _ (by simp [ha])] at h
      have he : e ∈ tl := List.mem_of_find?_eq_some h
      have hes : e.1 = s := by
        have := List.find?_some h
        simpa using this
      have hlow : ¬ ((fun p : String × β => strLower p.1 == strLower s) a = true) := by
        intro hcontra
        apply hnd.1
        rw [show strLower a.1 = strLower s from by simpa using hcontra, ← hes]
        exact List.mem_map_of_mem (fun p => strLower p.1) he
      rw [List.find?_cons_of_neg (p := fun q : String × β => strLower q.1 == strLower s) _ hlow]
      exact ih hnd.2 h

/-- C7: `musicalKeyToCamelot` resolves every label exactly as the spec's
case-insensitive, whitespace-trimmed table lookup does, returning no
mapping for labels outside the table; in particular "C major" ↦ 8B,
"A minor" ↦ 8A, "F# major" ↦ 2B and "invalid" ↦ none. -/
theorem key_resolution_spec :
    (∀ s : String, musicalKeyToCamelot s = specResolve s) ∧
    musicalKeyToCamelot "C major" = some ⟨8, .B⟩ ∧
    musicalKeyToCamelot "A minor" = some ⟨8, .A⟩ ∧
    musicalKeyToCamelot "F# major" = some ⟨2, .B⟩ ∧
    musicalKeyToCamelot "invalid" = none := by
  refine ⟨?_, by decide, by decide, by decide, by decide⟩
  intro s
  have hall := camelotMap_keys_trimmed
  rw [List.all_eq_true] at hall
  unfold musicalKeyToCamelot specResolve lookupExact
  cases hfind : CAMELOT_MAP.find? (fun p => p.1 == s) with
  | some e =>
    have he1 : e.1 = s := by simpa using List.find?_some hfind
    have hmem := List.mem_of_find?_eq_some hfind
    have htrim : strTrim s = s := by
      rw [← he1]
      simpa using hall e hmem
    have hci := find?_lower_of_find?_exact CAMELOT_MAP s e camelotMap_lower_nodup hfind
    simp [htrim, hci]
  | none =>
    cases hfind2 : CAMELOT_MAP.find? (fun p => p.1 == strTrim s) with
    | some e =>
      have hci :=
        find?_lower_of_find?_exact CAMELOT_MAP (strTrim s) e camelotMap_lower_nodup hfind2
      simp [hfind2, hci]
    | none => simp [hfind2]

lemma isTransitionCompatible_iff (X Y : Track) :
    isTransitionCompatible X Y = true ↔
      isTrackAnalyzed X = true ∧ isTrackAnalyzed Y = true ∧
      bpmDiff X Y ≤ 20 ∧
      isCamelotCompatible (keyValue X) (keyValue Y) = true := by
  unfold isTransitionCompatible MAX_BPM_DIFFERENCE
  constructor
  · intro h
    split_ifs at h with h1 h2
    · simp at h1
      refine ⟨h1.1, h1.2, by linarith [not_lt.mp h2], h⟩
  · rintro ⟨hx, hy, hd, hc⟩
    rw [if_neg (by simp [hx, hy]), if_neg (by simpa using not_lt.mpr hd)]
    exact hc

lemma isTransitionCompatible_comm (X Y : Track) :
    isTransitionCompatible X Y = isTransitionCompatible Y X := by
  unfold isTransitionCompatible
  have hd : bpmDiff X Y = bpmDiff Y X := bpmDiff_comm X Y
  have hk : isCamelotCompatible (keyValue X) (keyValue Y) =
      isCamelotCompatible (keyValue Y) (keyValue X) := by
    unfold isCamelotCompatible
    rw [getKeyCompatibilityType_comm]
  rw [hd, hk, Bool.and_comm]

/-- C4: `isTransitionCompatible` holds exactly when both tracks are
analyzed, the BPM difference is at most 20 and the keys are
Camelot-compatible; the predicate is symmetric; a BPM difference of
exactly 20 is compatible and 21 is not (same key 8B on both sides). -/
theorem transition_compatible_spec :
    (∀ X Y : Track, isTransitionCompatible X Y = true ↔
      isTrackAnalyzed X = true ∧ isTrackAnalyzed Y = true ∧
      bpmDiff X Y ≤ 20 ∧
      isCamelotCompatible (keyValue X) (keyValue Y) = true) ∧
    (∀ X Y : Track, isTransitionCompatible X Y = isTransitionCompatible Y X) ∧
    isTransitionCompatible ⟨"x", some 128, some ⟨8, .B⟩⟩ ⟨"y", some 148, some ⟨8, .B⟩⟩ = true ∧
    isTransitionCompatible ⟨"x", some 128, some ⟨8, .B⟩⟩ ⟨"y", some 149, some ⟨8, .B⟩⟩ = false := by
  refine ⟨isTransitionCompatible_iff, isTransitionCompatible_comm, ?_, ?_⟩
  · apply (isTransitionCompatible_iff _ _).mpr
    refine ⟨by decide, by decide, ?_, by decide⟩
    unfold bpmDiff bpmValue absQ
    norm_num
  · apply Bool.eq_false_iff.mpr
    intro h
    have hd := ((isTransitionCompatible_iff _ _).mp h).2.2.1
    unfold bpmDiff bpmValue absQ at hd
    norm_num at hd

/-- C6: `calculateTransitionQuality` matches the spec's quality tiers
(`poor` when the classification is incompatible or the difference exceeds
20, otherwise `excellent`/`good`/`fair` by the `<5`, `5≤d<10`, `10≤d≤20`
bands), and for an unanalyzed endpoint `createTransition` stores an
infinite BPM difference, `incompatible` classification, and `poor`
quality. -/
theorem transition_quality_spec :
    (∀ a b : Track, calculateTransitionQuality a b = specQuality a b) ∧
    (∀ a b : Track, isTrackAnalyzed a = false ∨ isTrackAnalyzed b = false →
      (createTransition a b).bpmDifference = none ∧
      (createTransition a b).keyCompatibility = .incompatible ∧
      (createTransition a b).quality = .poor) := by
  constructor
  · intro a b
    unfold calculateTransitionQuality specQuality MAX_BPM_DIFFERENCE
    cases hab : (isTrackAnalyzed a && isTrackAnalyzed b) with
    | false => simp
    | true =>
      simp only [Bool.true_eq_false, not_false_iff, if_true, if_false, reduceIte]
      split_ifs <;> simp_all <;> linarith
  · intro a b h
    have hab : (isTrackAnalyzed a && isTrackAnalyzed b) = false := by
      rcases h with h | h <;> simp [h]
    unfold createTransition calculateTransitionQuality
    simp [hab]

/-- Closed instantiation of `transition_quality_spec`'s unanalyzed-endpoint
clause at a track with no BPM. -/
theorem transition_quality_spec_witness :
    (createTransition ⟨"x", none, some ⟨8, .B⟩⟩ ⟨"y", some 128, some ⟨8, .B⟩⟩).bpmDifference
      = none ∧
    (createTransition ⟨"x", none, some ⟨8, .B⟩⟩ ⟨"y", some 128, some ⟨8, .B⟩⟩).keyCompatibility
      = .incompatible ∧
    (createTransition ⟨"x", none, some ⟨8, .B⟩⟩ ⟨"y", some 128, some ⟨8, .B⟩⟩).quality
      = .poor :=
  transition_quality_spec.2 ⟨"x", none, some ⟨8, .B⟩⟩ ⟨"y", some 128, some ⟨8, .B⟩⟩
    (Or.inl (by decide))

/-! ### Structure of greedy paths -/

lemma nodup_length_le {α : Type} {l₁ l₂ : List α} [DecidableEq α]
    (h1 : l₁.Nodup) (h2 : l₁ ⊆ l₂) : l₁.length ≤ l₂.length := by
  calc l₁.length = l₁.toFinset.card := by rw [List.toFinset_card_of_nodup h1]
  _ ≤ l₂.toFinset.card := Finset.card_le_card (by
      intro a ha
      simp only [List.mem_toFinset] at ha ⊢
      exact h2 ha)
  _ ≤ l₂.length := l₂.toFinset_card_le

lemma foldl_pick_mem {α : Type} (step : α → α → α)
    (hstep : ∀ b t, step b t = b ∨ step b t = t) :
    ∀ (cs : List α) (c : α), cs.foldl step c ∈ c :: cs := by
  intro cs
  induction cs with
  | nil => simp
  | cons d ds ih =>
    intro c
    have hm := ih (step c d)
    rw [List.foldl_cons]
    rcases List.mem_cons.mp hm with h1 | h1
    · rw [h1]
      rcases hstep c d with h | h <;> rw [h] <;> simp
    · exact List.mem_cons_of_mem _ (List.mem_cons_of_mem _ h1)

lemma pickBest_mem (current c : Track) (cs : List Track) :
    pickBest current c cs ∈ c :: cs := by
  unfold pickBest
  apply foldl_pick_mem
  intro b t
  split_ifs <;> tauto

lemma greedyLoop_subset : ∀ (fuel : ℕ) (current : Track) (remaining : List Track),
    greedyLoop fuel current remaining ⊆ remaining := by
  intro fuel
  induction fuel with
  | zero => intro current remaining; simp [greedyLoop]
  | succ n ih =>
    intro current remaining
    rw [greedyLoop]
    cases hc : remaining.filter (fun t => isTransitionCompatible current t) with
    | nil => simp
    | cons c cs =>
      intro t ht
      rcases List.mem_cons.mp ht with ht | ht
      · have : pickBest current c cs ∈ c :: cs := pickBest_mem current c cs
        rw [← hc] at this
        rw [ht]
        exact List.filter_subset' _ this
      · exact (remaining.erase_subset _) (ih _ _ ht)

lemma greedyLoop_nodup : ∀ (fuel : ℕ) (current : Track) (remaining : List Track),
    remaining.Nodup → (greedyLoop fuel current remaining).Nodup := by
  intro fuel
  induction fuel with
  | zero => intro current remaining _; simp [greedyLoop]
  | succ n ih =>
    intro current remaining hnd
    rw [greedyLoop]
    cases hc : remaining.filter (fun t => isTransitionCompatible current t) with
    | nil => simp
    | cons c cs =>
      refine List.nodup_cons.mpr ⟨?_, ih _ _ (hnd.erase _)⟩
      intro hmem
      have := greedyLoop_subset n (pickBest current c cs) (remaining.erase (pickBest current c cs)) hmem
      exact hnd.not_mem_erase this

lemma greedyLoop_chain : ∀ (fuel : ℕ) (current : Track) (remaining : List Track),
    List.Chain (fun a b => isTransitionCompatible a b = true) current
      (greedyLoop fuel current remaining) := by
  intro fuel
  induction fuel with
  | zero => intro current remaining; simp [greedyLoop]
  | succ n ih =>
    intro current remaining
    rw [greedyLoop]
    cases hc : remaining.filter (fun t => isTransitionCompatible current t) with
    | nil => simp
    | cons c cs =>
      refine List.Chain.cons ?_ (ih _ _)
      have : pickBest current c cs ∈ c :: cs := pickBest_mem current c cs
      rw [← hc] at this
      exact (List.mem_filter.mp this).2

lemma greedyPath_ne_nil (s : Track) (A : List Track) : greedyPath s A ≠ [] := by
  unfold greedyPath
  simp

lemma greedyPath_chain (s : Track) (A : List Track) :
    List.Chain' (fun a b => isTransitionCompatible a b = true) (greedyPath s A) :=
  greedyLoop_chain _ s _

lemma greedyPath_subset (s : Track) (A : List Track) (hs : s ∈ A) :
    greedyPath s A ⊆ A := by
  unfold greedyPath
  intro t ht
  rcases List.mem_cons.mp ht with ht | ht
  · rw [ht]; exact hs
  · exact List.filter_subset' A (greedyLoop_subset _ _ _ ht)

lemma greedyPath_nodup (s : Track) (A : List Track) (hnd : A.Nodup) :
    (greedyPath s A).Nodup := by
  unfold greedyPath
  refine List.nodup_cons.mpr ⟨?_, greedyLoop_nodup _ _ _ (hnd.filter _)⟩
  intro hmem
  have := greedyLoop_subset _ s _ hmem
  have := List.mem_filter.mp this
  simp at this

lemma greedyPath_length_le (s : Track) (A : List Track) (hs : s ∈ A) (hnd : A.Nodup) :
    (greedyPath s A).length ≤ A.length :=
  nodup_length_le (greedyPath_nodup s A hnd) (greedyPath_subset s A hs)

/-! ### The multi-seed search fold -/

/-- Paths that the search loop can store: greedy paths of some seed. -/
def IsSeedPath (A p : List Track) : Prop :=
  ∃ s ∈ A, p = greedyPath s A

lemma searchStep_bestComplete_cases (N : ℕ) (st : SearchState) (path : List Track) :
    (searchStep N st path).bestComplete = st.bestComplete ∨
    ((searchStep N st path).bestComplete = some (path, calculatePathScore path) ∧
      path.length = N) := by
  unfold searchStep
  by_cases h1 : path.length = N
  · rw [if_pos h1]
    cases hb : st.bestComplete with
    | none => right; exact ⟨rfl, h1⟩
    | some pq =>
      rcases pq with ⟨p, q⟩
      dsimp only
      split_ifs
      · right; exact ⟨rfl, h1⟩
      · left; rw [hb]
  · rw [if_neg h1]
    split_ifs <;> left <;> rfl

lemma searchStep_bestPartial_cases (N : ℕ) (st : SearchState) (path : List Track) :
    (searchStep N st path).bestPartial = st.bestPartial ∨
    ((searchStep N st path).bestPartial = path ∧ path.length ≠ N) := by
  unfold searchStep
  by_cases h1 : path.length = N
  · rw [if_pos h1]
    cases hb : st.bestComplete with
    | none => left; rfl
    | some pq =>
      rcases pq with ⟨p, q⟩
      dsimp only
      split_ifs <;> left <;> rfl
  · rw [if_neg h1]
    split_ifs <;> first
      | (left; rfl)
      | (right; exact ⟨rfl, h1⟩)

lemma searchStep_complete_none (N : ℕ) (st : SearchState) (path : List Track)
    (h : (searchStep N st path).bestComplete = none) :
    st.bestComplete = none ∧ path.length ≠ N := by
  unfold searchStep at h
  by_cases h1 : path.length = N
  · rw [if_pos h1] at h
    exfalso
    cases hb : st.bestComplete with
    | none => rw [hb] at h; simp at h
    | some pq =>
      rcases pq with ⟨p, q⟩
      rw [hb] at h
      dsimp only at h
      split_ifs at h <;> simp_all
  · rw [if_neg h1] at h
    split_ifs at h <;> exact ⟨h, h1⟩

lemma searchStep_partial_stay (N : ℕ) (st : SearchState) (path : List Track)
    (hne : path ≠ []) (h : st.bestPartial ≠ []) :
    (searchStep N st path).bestPartial ≠ [] := by
  rcases searchStep_bestPartial_cases N st path with hc | hc
  · rw [hc]; exact h
  · rw [hc.1]; exact hne

lemma foldl_search_invariant (A : List Track) (N : ℕ) :
    ∀ (seeds : List Track) (st : SearchState), seeds ⊆ A →
    (st.bestComplete = none ∨
      ∃ p q, st.bestComplete = some (p, q) ∧ IsSeedPath A p ∧ p.length = N) →
    (st.bestPartial = [] ∨ (IsSeedPath A st.bestPartial ∧ st.bestPartial.length ≠ N)) →
    (((seeds.foldl (fun acc s => searchStep N acc (greedyPath s A)) st).bestComplete = none ∨
      ∃ p q, (seeds.foldl (fun acc s => searchStep N acc (greedyPath s A)) st).bestComplete
        = some (p, q) ∧ IsSeedPath A p ∧ p.length = N) ∧
     ((seeds.foldl (fun acc s => searchStep N acc (greedyPath s A)) st).bestPartial = [] ∨
      (IsSeedPath A (seeds.foldl (fun acc s => searchStep N acc (greedyPath s A)) st).bestPartial ∧
       (seeds.foldl (fun acc s => searchStep N acc (greedyPath s A)) st).bestPartial.length ≠ N))) := by
  intro seeds
  induction seeds with
  | nil => intro st _ hC hP; exact ⟨hC, hP⟩
  | cons s ss ih =>
    intro st hsub hC hP
    rw [List.foldl_cons]
    have hsA : s ∈ A := hsub (List.mem_cons_self s ss)
    have hss : ss ⊆ A := fun x hx => hsub (List.mem_cons_of_mem s hx)
    apply ih _ hss
    · rcases searchStep_bestComplete_cases N st (greedyPath s A) with hc | hc
      · rw [hc]; exact hC
      · right
        exact ⟨_, _, hc.1, ⟨s, hsA, rfl⟩, hc.2⟩
    · rcases searchStep_bestPartial_cases N st (greedyPath s A) with hc | hc
      · rw [hc]; exact hP
      · right
        rw [hc.1]
        exact ⟨⟨s, hsA, rfl⟩, hc.2⟩

lemma foldl_search_complete_none (A : List Track) (N : ℕ) :
    ∀ (seeds : List Track) (st : SearchState),
    (seeds.foldl (fun acc s => searchStep N acc (greedyPath s A)) st).bestComplete = none →
    st.bestComplete = none ∧ ∀ s ∈ seeds, (greedyPath s A).length ≠ N := by
  intro seeds
  induction seeds with
  | nil => intro st h; exact ⟨h, by simp⟩
  | cons s ss ih =>
    intro st h
    rw [List.foldl_cons] at h
    obtain ⟨h1, h2⟩ := ih _ h
    obtain ⟨h3, h4⟩ := searchStep_complete_none N st (greedyPath s A) h1
    refine ⟨h3, ?_⟩
    intro u hu
    rcases List.mem_cons.mp hu with hu | hu
    · rw [hu]; exact h4
    · exact h2 u hu

lemma searchStep_partial_trigger (N : ℕ) (st : SearchState) (path : List Track)
    (hne : path ≠ []) (hlen : path.length ≠ N) :
    (searchStep N st path).bestPartial ≠ [] := by
  unfold searchStep
  rw [if_neg hlen]
  by_cases hst : st.bestPartial = []
  · rw [hst]
    rw [if_pos (by cases path with
      | nil => exact absurd rfl hne
      | cons a l => simp)]
    simpa using hne
  · split_ifs
    · simpa using hne
    · simpa using hne
    · exact hst
    · exact hst

lemma foldl_search_partial_ne (A : List Track) (N : ℕ) :
    ∀ (seeds : List Track) (st : SearchState),
    (st.bestPartial ≠ [] ∨ ∃ s ∈ seeds, (greedyPath s A).length ≠ N) →
    (seeds.foldl (fun acc s => searchStep N acc (greedyPath s A)) st).bestPartial ≠ [] := by
  intro seeds
  induction seeds with
  | nil =>
    intro st h
    rcases h with h | ⟨s, hs, _⟩
    · exact h
    · simp at hs
  | cons s ss ih =>
    intro st h
    rw [List.foldl_cons]
    rcases h with h | ⟨u, hu, hlen⟩
    · exact ih _ (Or.inl (searchStep_partial_stay N st _ (greedyPath_ne_nil s A) h))
    · rcases List.mem_cons.mp hu with hu | hu
      · subst hu
        exact ih _ (Or.inl (searchStep_partial_trigger N st _ (greedyPath_ne_nil u A) hlen))
      · exact ih _ (Or.inr ⟨u, hu, hlen⟩)

/-- C5: every adjacent pair in the ordered result satisfies the
legal-transition predicate, unconditionally: every returned ordering is a
greedy path built from legal transitions only. -/
theorem ordered_adjacent_legal (tracks : List Track) :
    List.Chain' (fun a b => isTransitionCompatible a b = true)
      (findOptimalOrder tracks).orderedTracks := by
  unfold findOptimalOrder
  dsimp only
  split_ifs with h0 h1
  · simp
  · rcases List.length_eq_one.mp h1 with ⟨a, ha⟩
    simp only [ha]
    exact List.chain'_singleton a
  · obtain ⟨hC, hP⟩ := foldl_search_invariant (tracks.filter isTrackAnalyzed)
      (tracks.filter isTrackAnalyzed).length (tracks.filter isTrackAnalyzed)
      ⟨none, []⟩ (fun x hx => hx) (Or.inl rfl) (Or.inl rfl)
    dsimp only
    cases hbc : ((tracks.filter isTrackAnalyzed).foldl
        (fun acc s => searchStep (tracks.filter isTrackAnalyzed).length acc
          (greedyPath s (tracks.filter isTrackAnalyzed))) ⟨none, []⟩).bestComplete with
    | some pq =>
      rcases hC with hC | ⟨p, q, hpq, ⟨s, hs, hsp⟩, hlen⟩
      · rw [hbc] at hC; simp at hC
      · rw [hbc] at hpq
        injection hpq with hpq
        rcases pq with ⟨p', q'⟩
        have hp' : p' = greedyPath s (tracks.filter isTrackAnalyzed) := by
          have := congrArg Prod.fst hpq
          simp at this
          rw [this]
          exact hsp
        simp only [hp']
        exact greedyPath_chain _ _
    | none =>
      rcases hP with hP | ⟨⟨s, hs, hsp⟩, _⟩
      · simp only [hP]
        exact List.chain'_nil
      · simp only [hsp]
        exact greedyPath_chain _ _

/-! ### Totality and the length bookkeeping (C2) -/

lemma buildTransitions_length : ∀ l : List Track, (buildTransitions l).length = l.length - 1 := by
  intro l
  match l with
  | [] => rfl
  | [a] => rfl
  | a :: b :: m =>
    have ih := buildTransitions_length (b :: m)
    rw [buildTransitions]
    simp only [List.length_cons] at ih ⊢
    omega

lemma length_filter_split {α : Type} (l : List α) (p : α → Bool) :
    (l.filter p).length + (l.filter (fun a => ¬ p a)).length = l.length := by
  induction l with
  | nil => rfl
  | cons a tl ih =>
    cases hpa : p a <;> simp [List.filter_cons, hpa, decide_not] at ih ⊢ <;> omega

lemma length_filter_split_prop {α : Type} (l : List α) (p : α → Prop) [DecidablePred p] :
    (l.filter (fun a => p a)).length + (l.filter (fun a => ¬ p a)).length = l.length := by
  induction l with
  | nil => rfl
  | cons a tl ih =>
    by_cases hpa : p a <;> simp [List.filter_cons, hpa, decide_not] at ih ⊢ <;> omega

lemma eq_of_mem_of_id_eq : ∀ (l : List Track),
    (l.map (fun t => t.id)).Nodup →
    ∀ x ∈ l, ∀ y ∈ l, x.id = y.id → x = y := by
  intro l
  induction l with
  | nil => simp
  | cons a tl ih =>
    intro hnd x hx y hy hxy
    rw [List.map_cons, List.nodup_cons] at hnd
    rcases List.mem_cons.mp hx with hx | hx <;> rcases List.mem_cons.mp hy with hy | hy
    · rw [hx, hy]
    · exfalso
      apply hnd.1
      rw [hx] at hxy
      rw [hxy]
      exact List.mem_map_of_mem _ hy
    · exfalso
      apply hnd.1
      rw [hy] at hxy
      rw [← hxy]
      exact List.mem_map_of_mem _ hx
    · exact ih hnd.2 x hx y hy hxy

lemma filter_mem_id_perm (A ordered : List Track)
    (hsub : ordered ⊆ A) (hids : (A.map (fun t => t.id)).Nodup) (hond : ordered.Nodup) :
    List.Perm (A.filter (fun t => t.id ∈ ordered.map (fun u => u.id))) ordered := by
  have hAnd : A.Nodup := List.Nodup.of_map _ hids
  apply (List.perm_ext_iff_of_nodup (hAnd.filter _) hond).mpr
  intro t
  simp only [List.mem_filter, decide_eq_true_eq, List.mem_map]
  constructor
  · rintro ⟨htA, u, hu, hid⟩
    have : u = t := eq_of_mem_of_id_eq A hids u (hsub hu) t htA hid
    rw [← this]
    exact hu
  · intro ht
    exact ⟨hsub ht, t, ht, rfl⟩

lemma subset_of_nodup_of_length_le {α : Type} [DecidableEq α] {p A : List α}
    (hsub : p ⊆ A) (hp : p.Nodup) (hA : A.Nodup) (hlen : A.length ≤ p.length) : A ⊆ p := by
  have h1 : p.toFinset ⊆ A.toFinset := by
    intro a ha
    simp only [List.mem_toFinset] at ha ⊢
    exact hsub ha
  have hcard : A.toFinset.card ≤ p.toFinset.card := by
    rw [List.toFinset_card_of_nodup hp, List.toFinset_card_of_nodup hA]
    exact hlen
  have heq : p.toFinset = A.toFinset := Finset.eq_of_subset_of_card_le h1 hcard
  intro a ha
  have ha' : a ∈ A.toFinset := List.mem_toFinset.mpr ha
  rw [← heq] at ha'
  exact List.mem_toFinset.mp ha'

/-- In every branch of `findOptimalOrder`, the rejected set is the analyzed
tracks missing from the ordered ids plus the unanalyzed tracks, and the
transitions are the consecutive-pair records of the ordered list. -/
lemma orphan_transitions_shape (tracks : List Track) :
    (findOptimalOrder tracks).orphanTracks
      = (tracks.filter isTrackAnalyzed).filter
          (fun t => ¬ t.id ∈ (findOptimalOrder tracks).orderedTracks.map (fun u => u.id))
        ++ tracks.filter (fun t => ¬ isTrackAnalyzed t) ∧
    (findOptimalOrder tracks).transitions
      = buildTransitions (findOptimalOrder tracks).orderedTracks := by
  unfold findOptimalOrder
  dsimp only
  split_ifs with h0 h1
  · have hA : tracks.filter isTrackAnalyzed = [] := List.length_eq_zero.mp h0
    rw [hA]
    exact ⟨rfl, rfl⟩
  · rcases List.length_eq_one.mp h1 with ⟨a, ha⟩
    rw [ha]
    constructor
    · have : [a].filter (fun t => ¬ t.id ∈ [a].map (fun u => u.id)) = [] := by
        simp
      rw [this]
      rfl
    · rfl
  · exact ⟨rfl, rfl⟩

/-- The ordered result is always the empty list, the full analyzed list
(degenerate single-track case), or a greedy path grown from some analyzed
seed. -/
lemma ordered_cases (tracks : List Track) :
    (findOptimalOrder tracks).orderedTracks = [] ∨
    (findOptimalOrder tracks).orderedTracks = tracks.filter isTrackAnalyzed ∨
    ∃ s ∈ tracks.filter isTrackAnalyzed,
      (findOptimalOrder tracks).orderedTracks
        = greedyPath s (tracks.filter isTrackAnalyzed) := by
  unfold findOptimalOrder
  dsimp only
  split_ifs with h0 h1
  · exact Or.inl rfl
  · exact Or.inr (Or.inl rfl)
  · obtain ⟨hC, hP⟩ := foldl_search_invariant (tracks.filter isTrackAnalyzed)
      (tracks.filter isTrackAnalyzed).length (tracks.filter isTrackAnalyzed)
      ⟨none, []⟩ (fun x hx => hx) (Or.inl rfl) (Or.inl rfl)
    dsimp only
    cases hbc : ((tracks.filter isTrackAnalyzed).foldl
        (fun acc s => searchStep (tracks.filter isTrackAnalyzed).length acc
          (greedyPath s (tracks.filter isTrackAnalyzed))) ⟨none, []⟩).bestComplete with
    | some pq =>
      rcases hC with hC | ⟨p, q, hpq, ⟨s, hs, hsp⟩, hlen⟩
      · rw [hbc] at hC; simp at hC
      · rw [hbc] at hpq
        injection hpq with hpq
        rcases pq with ⟨p', q'⟩
        right; right
        refine ⟨s, hs, ?_⟩
        have := congrArg Prod.fst hpq
        simp at this
        rw [this]
        exact hsp
    | none =>
      rcases hP with hP | ⟨⟨s, hs, hsp⟩, _⟩
      · rw [hP]
        exact Or.inl rfl
      · right; right
        exact ⟨s, hs, hsp⟩

lemma ordered_subset (tracks : List Track) :
    (findOptimalOrder tracks).orderedTracks ⊆ tracks.filter isTrackAnalyzed := by
  rcases ordered_cases tracks with h | h | ⟨s, hs, h⟩ <;> rw [h]
  · simp
  · exact fun x hx => hx
  · exact greedyPath_subset s _ hs

lemma ordered_nodup (tracks : List Track)
    (hnd : (tracks.filter isTrackAnalyzed).Nodup) :
    (findOptimalOrder tracks).orderedTracks.Nodup := by
  rcases ordered_cases tracks with h | h | ⟨s, hs, h⟩ <;> rw [h]
  · simp
  · exact hnd
  · exact greedyPath_nodup s _ hnd

/-- C2: `findOptimalOrder` is total and, for batches with pairwise-distinct
track ids (the data-model invariant), the ordered and rejected sets
partition the input and there is one transition per consecutive ordered
pair (`max(n-1, 0)` is truncated subtraction on `ℕ`). -/
theorem ordering_totality (tracks : List Track)
    (hids : (tracks.map (fun t => t.id)).Nodup) :
    (findOptimalOrder tracks).orderedTracks.length
        + (findOptimalOrder tracks).orphanTracks.length = tracks.length ∧
    (findOptimalOrder tracks).transitions.length
        = (findOptimalOrder tracks).orderedTracks.length - 1 := by
  obtain ⟨horph, htrans⟩ := orphan_transitions_shape tracks
  have hAids : ((tracks.filter isTrackAnalyzed).map (fun t => t.id)).Nodup :=
    hids.sublist ((tracks.filter_sublist).map _)
  have hAnd : (tracks.filter isTrackAnalyzed).Nodup := List.Nodup.of_map _ hAids
  constructor
  · rw [horph, List.length_append]
    have hperm := filter_mem_id_perm (tracks.filter isTrackAnalyzed)
      (findOptimalOrder tracks).orderedTracks (ordered_subset tracks) hAids
      (ordered_nodup tracks hAnd)
    have hlen1 := hperm.length_eq
    have hsplit1 := length_filter_split_prop (tracks.filter isTrackAnalyzed)
      (fun t => t.id ∈ (findOptimalOrder tracks).orderedTracks.map (fun u => u.id))
    have hsplit2 := length_filter_split tracks isTrackAnalyzed
    omega
  · rw [htrans, buildTransitions_length]

/-- Closed instantiation of `ordering_totality` on a two-track batch. -/
theorem ordering_totality_witness :
    (findOptimalOrder [⟨"a", some 128, some ⟨8, .B⟩⟩, ⟨"b", none, none⟩]).orderedTracks.length
        + (findOptimalOrder [⟨"a", some 128, some ⟨8, .B⟩⟩,
            ⟨"b", none, none⟩]).orphanTracks.length = 2 ∧
    (findOptimalOrder [⟨"a", some 128, some ⟨8, .B⟩⟩, ⟨"b", none, none⟩]).transitions.length
        = (findOptimalOrder [⟨"a", some 128, some ⟨8, .B⟩⟩,
            ⟨"b", none, none⟩]).orderedTracks.length - 1 :=
  ordering_totality [⟨"a", some 128, some ⟨8, .B⟩⟩, ⟨"b", none, none⟩] (by decide)

/-! ### The completeness flag (C3) -/

lemma all_analyzed_iff (tracks : List Track) :
    (tracks.filter (fun t => ¬ isTrackAnalyzed t)).length = 0 ↔
      ∀ t ∈ tracks, isTrackAnalyzed t = true := by
  rw [List.length_eq_zero, List.filter_eq_nil_iff]
  simp

/-- C3: for batches with pairwise-distinct track ids, `isComplete` is true
exactly when every input track is analyzed and appears in the ordered
result. -/
theorem completeness_flag (tracks : List Track)
    (hids : (tracks.map (fun t => t.id)).Nodup) :
    (findOptimalOrder tracks).isComplete = true ↔
      ∀ t ∈ tracks, isTrackAnalyzed t = true ∧
        t ∈ (findOptimalOrder tracks).orderedTracks := by
  have hAids : ((tracks.filter isTrackAnalyzed).map (fun t => t.id)).Nodup :=
    hids.sublist ((tracks.filter_sublist).map _)
  have hAnd : (tracks.filter isTrackAnalyzed).Nodup := List.Nodup.of_map _ hAids
  unfold findOptimalOrder
  dsimp only
  split_ifs with h0 h1
  · have hA : tracks.filter isTrackAnalyzed = [] := List.length_eq_zero.mp h0
    constructor
    · intro h
      have hall := (all_analyzed_iff tracks).mp (by simpa using h)
      intro t ht
      exfalso
      have : t ∈ tracks.filter isTrackAnalyzed := List.mem_filter.mpr ⟨ht, hall t ht⟩
      rw [hA] at this
      exact absurd this (List.not_mem_nil t)
    · intro h
      simpa using (all_analyzed_iff tracks).mpr (fun t ht => (h t ht).1)
  · constructor
    · intro h
      have hall := (all_analyzed_iff tracks).mp (by simpa using h)
      intro t ht
      exact ⟨hall t ht, List.mem_filter.mpr ⟨ht, hall t ht⟩⟩
    · intro h
      simpa using (all_analyzed_iff tracks).mpr (fun t ht => (h t ht).1)
  · obtain ⟨hC, hP⟩ := foldl_search_invariant (tracks.filter isTrackAnalyzed)
      (tracks.filter isTrackAnalyzed).length (tracks.filter isTrackAnalyzed)
      ⟨none, []⟩ (fun x hx => hx) (Or.inl rfl) (Or.inl rfl)
    dsimp only
    constructor
    · intro h
      rw [Bool.and_eq_true] at h
      have hall := (all_analyzed_iff tracks).mp (by simpa using h.2)
      cases hbc : ((tracks.filter isTrackAnalyzed).foldl
          (fun acc s => searchStep (tracks.filter isTrackAnalyzed).length acc
            (greedyPath s (tracks.filter isTrackAnalyzed))) ⟨none, []⟩).bestComplete with
      | none => rw [hbc] at h; simp at h
      | some pq =>
        rcases hC with hC | ⟨p, q, hpq, ⟨s, hs, hsp⟩, hlen⟩
        · rw [hbc] at hC; simp at hC
        · rw [hbc] at hpq
          rcases pq with ⟨p', q'⟩
          injection hpq with hpq
          have hp' : p' = p := by
            have := congrArg Prod.fst hpq
            simpa using this
          subst hp'
          subst hsp
          intro t ht
          refine ⟨hall t ht, ?_⟩
          have htA : t ∈ tracks.filter isTrackAnalyzed :=
            List.mem_filter.mpr ⟨ht, hall t ht⟩
          have hAsub : tracks.filter isTrackAnalyzed ⊆
              greedyPath s (tracks.filter isTrackAnalyzed) := by
            apply subset_of_nodup_of_length_le
              (greedyPath_subset s _ hs) (greedyPath_nodup s _ hAnd) hAnd
            rw [hlen]
          exact hAsub htA
    · intro h
      rw [Bool.and_eq_true]
      have hall : ∀ t ∈ tracks, isTrackAnalyzed t = true := fun t ht => (h t ht).1
      refine ⟨?_, by simpa using (all_analyzed_iff tracks).mpr hall⟩
      cases hbc : ((tracks.filter isTrackAnalyzed).foldl
          (fun acc s => searchStep (tracks.filter isTrackAnalyzed).length acc
            (greedyPath s (tracks.filter isTrackAnalyzed))) ⟨none, []⟩).bestComplete with
      | some pq => simp
      | none =>
        exfalso
        have hord : ∀ t ∈ tracks, t ∈ (((tracks.filter isTrackAnalyzed).foldl
            (fun acc s => searchStep (tracks.filter isTrackAnalyzed).length acc
              (greedyPath s (tracks.filter isTrackAnalyzed))) ⟨none, []⟩).bestPartial) := by
          intro t ht
          have := (h t ht).2
          rw [hbc] at this
          exact this
        have hAsub : tracks.filter isTrackAnalyzed ⊆
            ((tracks.filter isTrackAnalyzed).foldl
              (fun acc s => searchStep (tracks.filter isTrackAnalyzed).length acc
                (greedyPath s (tracks.filter isTrackAnalyzed))) ⟨none, []⟩).bestPartial :=
          fun t ht => hord t (List.filter_subset' tracks ht)
        rcases hP with hnil | ⟨⟨s, hs, hsp⟩, hne⟩
        · rw [hnil] at hAsub
          have : tracks.filter isTrackAnalyzed = [] :=
            List.eq_nil_iff_forall_not_mem.mpr (fun t ht => absurd (hAsub ht)
              (List.not_mem_nil t))
          rw [this] at h0
          exact h0 rfl
        · apply hne
          rw [hsp] at hAsub ⊢
          have hle1 := nodup_length_le (greedyPath_nodup s _ hAnd) (greedyPath_subset s _ hs)
          have hle2 := nodup_length_le hAnd hAsub
          omega

/-- Closed instantiation of `completeness_flag` on a two-track batch with
one unanalyzed track. -/
theorem completeness_flag_witness :
    (findOptimalOrder [⟨"a", some 128, some ⟨8, .B⟩⟩, ⟨"b", none, none⟩]).isComplete = true ↔
      ∀ t ∈ [Track.mk "a" (some 128) (some ⟨8, .B⟩), Track.mk "b" none none],
        isTrackAnalyzed t = true ∧
        t ∈ (findOptimalOrder [⟨"a", some 128, some ⟨8, .B⟩⟩,
              ⟨"b", none, none⟩]).orderedTracks :=
  completeness_flag [⟨"a", some 128, some ⟨8, .B⟩⟩, ⟨"b", none, none⟩] (by decide)

/-! ### First-minimum folds (C1 machinery) -/

lemma foldl_min_le {α β : Type} [LinearOrder β] (key : α → β) (step : α → α → α)
    (hstep : ∀ b t, step b t = if key t < key b then t else b) :
    ∀ (cs : List α) (c : α),
      key (cs.foldl step c) ≤ key c ∧ ∀ u ∈ cs, key (cs.foldl step c) ≤ key u := by
  intro cs
  induction cs with
  | nil => intro c; exact ⟨le_refl _, by simp⟩
  | cons d ds ih =>
    intro c
    rw [List.foldl_cons]
    obtain ⟨h1, h2⟩ := ih (step c d)
    constructor
    · rcases lt_or_le (key d) (key c) with hdc | hdc
      · calc key (ds.foldl step (step c d)) ≤ key (step c d) := h1
        _ ≤ key c := by rw [hstep, if_pos hdc]; exact le_of_lt hdc
      · calc key (ds.foldl step (step c d)) ≤ key (step c d) := h1
        _ ≤ key c := by rw [hstep, if_neg (not_lt.mpr hdc)]
    · intro u hu
      rcases List.mem_cons.mp hu with hu | hu
      · subst hu
        rcases lt_or_le (key u) (key c) with hdc | hdc
        · calc key (ds.foldl step (step c u)) ≤ key (step c u) := h1
          _ = key u := by rw [hstep, if_pos hdc]
        · calc key (ds.foldl step (step c u)) ≤ key (step c u) := h1
          _ ≤ key u := by rw [hstep, if_neg (not_lt.mpr hdc)]; exact hdc
      · exact h2 u hu

lemma foldl_min_first {α β : Type} [LinearOrder β] (key : α → β) (step : α → α → α)
    (hstep : ∀ b t, step b t = if key t < key b then t else b) :
    ∀ (cs : List α) (c : α),
      cs.foldl step c = c ∨
      ∃ l₁ l₂, cs = l₁ ++ (cs.foldl step c) :: l₂ ∧
        key (cs.foldl step c) < key c ∧
        ∀ u ∈ l₁, key (cs.foldl step c) < key u := by
  intro cs
  induction cs with
  | nil => intro c; exact Or.inl rfl
  | cons d ds ih =>
    intro c
    rw [List.foldl_cons]
    rcases lt_or_le (key d) (key c) with hdc | hdc
    · have hcd : step c d = d := by rw [hstep, if_pos hdc]
      rw [hcd]
      rcases ih d with h | ⟨l₁, l₂, hds, hlt, hall⟩
      · right
        exact ⟨[], ds, by rw [h]; simp, by rw [h]; exact hdc, by simp⟩
      · right
        refine ⟨d :: l₁, l₂, by rw [List.cons_append, ← hds], lt_trans hlt hdc, ?_⟩
        intro u hu
        rcases List.mem_cons.mp hu with hu | hu
        · subst hu; exact hlt
        · exact hall u hu
    · have hcd : step c d = c := by rw [hstep, if_neg (not_lt.mpr hdc)]
      rw [hcd]
      rcases ih c with h | ⟨l₁, l₂, hds, hlt, hall⟩
      · exact Or.inl h
      · right
        refine ⟨d :: l₁, l₂, by rw [List.cons_append, ← hds], hlt, ?_⟩
        intro u hu
        rcases List.mem_cons.mp hu with hu | hu
        · subst hu; exact lt_of_lt_of_le hlt hdc
        · exact hall u hu

lemma find?_of_first {α : Type} (p : α → Bool) :
    ∀ (L₁ : List α) (m : α) (L₂ : List α),
    (∀ u ∈ L₁, p u = false) → p m = true →
    (L₁ ++ m :: L₂).find? p = some m := by
  intro L₁
  induction L₁ with
  | nil =>
    intro m L₂ _ hm
    rw [List.nil_append]
    exact List.find?_cons_of_pos _ hm
  | cons a l ih =>
    intro m L₂ hfail hm
    rw [List.cons_append]
    rw [List.find?_cons_of_neg _ (by simp [hfail a (List.mem_cons_self a l)])]
    exact ih m L₂ (fun u hu => hfail u (List.mem_cons_of_mem a hu)) hm

lemma find?_congr_mem {α : Type} (p q : α → Bool) :
    ∀ (l : List α), (∀ a ∈ l, p a = q a) → l.find? p = l.find? q := by
  intro l
  induction l with
  | nil => intro _; rfl
  | cons a tl ih =>
    intro h
    have ha := h a (List.mem_cons_self a tl)
    cases hpa : p a with
    | true =>
      rw [List.find?_cons_of_pos _ hpa, List.find?_cons_of_pos _ (by rw [← ha]; exact hpa)]
    | false =>
      rw [List.find?_cons_of_neg _ (by simp [hpa]),
        List.find?_cons_of_neg _ (by simp [← ha, hpa])]
      exact ih (fun b hb => h b (List.mem_cons_of_mem a hb))

lemma foldl_congr_mem {α β : Type} (f g : β → α → β) :
    ∀ (l : List α), (∀ b, ∀ a ∈ l, f b a = g b a) →
    ∀ (init : β), l.foldl f init = l.foldl g init := by
  intro l
  induction l with
  | nil => intro _ init; rfl
  | cons a tl ih =>
    intro h init
    rw [List.foldl_cons, List.foldl_cons, h init a (List.mem_cons_self a tl)]
    exact ih (fun b x hx => h b x (List.mem_cons_of_mem a hx)) _

/-! ### Decomposing the multi-seed loop (C1 machinery) -/

lemma searchStep_eq (N : ℕ) (st : SearchState) (path : List Track) :
    searchStep N st path =
      if path.length = N then { st with bestComplete := completeStep st.bestComplete path }
      else { st with bestPartial := partialStep st.bestPartial path } := by
  unfold searchStep completeStep partialStep
  by_cases h : path.length = N
  · rw [if_pos h, if_pos h]
    cases hb : st.bestComplete with
    | none => rfl
    | some pq =>
      rcases pq with ⟨p, q⟩
      dsimp only
      split_ifs
      · rfl
      · rw [← hb]
  · rw [if_neg h, if_neg h]
    split_ifs <;> rfl

lemma foldl_searchStep_decompose (N : ℕ) :
    ∀ (paths : List (List Track)) (st : SearchState),
    (paths.foldl (searchStep N) st).bestComplete
      = (paths.filter (fun p => p.length = N)).foldl completeStep st.bestComplete ∧
    (paths.foldl (searchStep N) st).bestPartial
      = (paths.filter (fun p => ¬ p.length = N)).foldl partialStep st.bestPartial := by
  intro paths
  induction paths with
  | nil => intro st; exact ⟨rfl, rfl⟩
  | cons p ps ih =>
    intro st
    rw [List.foldl_cons, searchStep_eq]
    by_cases h : p.length = N
    · rw [if_pos h]
      obtain ⟨h1, h2⟩ := ih { st with bestComplete := completeStep st.bestComplete p }
      constructor
      · rw [h1, List.filter_cons]
        simp [h]
      · rw [h2, List.filter_cons]
        simp [h]
    · rw [if_neg h]
      obtain ⟨h1, h2⟩ := ih { st with bestPartial := partialStep st.bestPartial p }
      constructor
      · rw [h1, List.filter_cons]
        simp [h]
      · rw [h2, List.filter_cons]
        simp [h]

lemma completeFold_aux :
    ∀ (cs : List (List Track)) (b : List Track),
    cs.foldl completeStep (some (b, calculatePathScore b))
      = some (cs.foldl (fun best p =>
          if calculatePathScore p < calculatePathScore best then p else best) b,
        calculatePathScore (cs.foldl (fun best p =>
          if calculatePathScore p < calculatePathScore best then p else best) b)) := by
  intro cs
  induction cs with
  | nil => intro b; rfl
  | cons p ps ih =>
    intro b
    rw [List.foldl_cons, List.foldl_cons]
    have : completeStep (some (b, calculatePathScore b)) p
        = some (if calculatePathScore p < calculatePathScore b then p else b,
            calculatePathScore (if calculatePathScore p < calculatePathScore b then p else b)) := by
      unfold completeStep
      dsimp only
      split_ifs <;> rfl
    rw [this, ih]

lemma completeFold_none_iff (cs : List (List Track)) :
    cs.foldl completeStep none = none ↔ cs = [] := by
  cases cs with
  | nil => simp
  | cons c tl =>
    rw [List.foldl_cons]
    have h0 : completeStep none c = some (c, calculatePathScore c) := rfl
    rw [h0, completeFold_aux]
    simp

/-! ### The greedy loop matches the reference greedy step (C1) -/

lemma refPick_eq_pickBest (cur c : Track) (cs : List Track) :
    refPick cur (c :: cs) = some (pickBest cur c cs) := by
  have hstep : ∀ b t : Track,
      (fun best t => if bpmDiff cur t < bpmDiff cur best then t else best) b t
        = if (fun t => bpmDiff cur t) t < (fun t => bpmDiff cur t) b then t else b := by
    intro b t
    rfl
  have hle := foldl_min_le (fun t => bpmDiff cur t)
    (fun best t => if bpmDiff cur t < bpmDiff cur best then t else best) hstep cs c
  have hfirst := foldl_min_first (fun t => bpmDiff cur t)
    (fun best t => if bpmDiff cur t < bpmDiff cur best then t else best) hstep cs c
  have hmfold : pickBest cur c cs
      = cs.foldl (fun best t => if bpmDiff cur t < bpmDiff cur best then t else best) c := rfl
  rw [← hmfold] at hle hfirst
  have hmin : ∀ u ∈ c :: cs, bpmDiff cur (pickBest cur c cs) ≤ bpmDiff cur u := by
    intro u hu
    rcases List.mem_cons.mp hu with hu | hu
    · subst hu; exact hle.1
    · exact hle.2 u hu
  have hpm : (fun t => (c :: cs).all (fun u => bpmDiff cur t ≤ bpmDiff cur u))
      (pickBest cur c cs) = true := by
    simp only [List.all_eq_true, decide_eq_true_eq]
    exact hmin
  unfold refPick
  rcases hfirst with h | ⟨l₁, l₂, hds, hlt, hall⟩
  · rw [h] at hpm ⊢
    exact List.find?_cons_of_pos _ hpm
  · have hdecomp : c :: cs = (c :: l₁) ++ (pickBest cur c cs) :: l₂ := by
      rw [List.cons_append, ← hds]
    rw [hdecomp]
    apply find?_of_first
    · intro u hu
      apply Bool.eq_false_iff.mpr
      intro hcontra
      simp only [List.all_eq_true, decide_eq_true_eq] at hcontra
      have hm_mem : pickBest cur c cs ∈ (c :: l₁) ++ (pickBest cur c cs) :: l₂ := by
        simp
      have hthis := hcontra _ hm_mem
      have hult : bpmDiff cur (pickBest cur c cs) < bpmDiff cur u := by
        rcases List.mem_cons.mp hu with hu | hu
        · subst hu; exact hlt
        · exact hall u hu
      exact absurd hthis (not_le.mpr hult)
    · simp only [List.all_eq_true, decide_eq_true_eq]
      intro v hv
      apply hmin
      rw [hdecomp]
      exact hv

lemma refGreedyAux_eq_greedyLoop (A : List Track) (hA : A.Nodup) :
    ∀ (f1 f2 : ℕ) (path : List Track) (cur : Track) (remaining : List Track),
    remaining = A.filter (fun t => ¬ t ∈ path) →
    remaining.length ≤ f1 → remaining.length ≤ f2 →
    refGreedyAux f2 A path cur = path ++ greedyLoop f1 cur remaining := by
  intro f1
  induction f1 with
  | zero =>
    intro f2 path cur remaining hrem hf1 hf2
    have hnil : remaining = [] := List.length_eq_zero.mp (Nat.le_zero.mp hf1)
    subst hnil
    cases f2 with
    | zero => simp [refGreedyAux, greedyLoop]
    | succ g2 =>
      rw [refGreedyAux]
      have hc : refCandidates A path cur = [] := by
        unfold refCandidates
        rw [← hrem]
        rfl
      rw [hc]
      simp [refPick, greedyLoop]
  | succ n ih =>
    intro f2 path cur remaining hrem hf1 hf2
    rw [greedyLoop]
    cases hcand : remaining.filter (fun t => isTransitionCompatible cur t) with
    | nil =>
      cases f2 with
      | zero => simp [refGreedyAux]
      | succ g2 =>
        rw [refGreedyAux]
        have hc : refCandidates A path cur = [] := by
          unfold refCandidates
          rw [← hrem]
          exact hcand
        rw [hc]
        simp [refPick]
    | cons c cs =>
      have hlen1 : 1 ≤ remaining.length := by
        cases hR : remaining with
        | nil => rw [hR] at hcand; simp at hcand
        | cons a l => simp [hR]
      cases f2 with
      | zero => omega
      | succ g2 =>
        rw [refGreedyAux]
        have hc : refCandidates A path cur = c :: cs := by
          unfold refCandidates
          rw [← hrem]
          exact hcand
        rw [hc, refPick_eq_pickBest]
        dsimp only
        have hbest_mem : pickBest cur c cs ∈ remaining := by
          have hm : pickBest cur c cs ∈ c :: cs := pickBest_mem cur c cs
          rw [← hcand] at hm
          exact List.filter_subset' remaining hm
        have hrem_nodup : remaining.Nodup := by
          rw [hrem]
          exact hA.filter _
        have hinv : remaining.erase (pickBest cur c cs)
            = A.filter (fun t => ¬ t ∈ (path ++ [pickBest cur c cs])) := by
          rw [List.Nodup.erase_eq_filter hrem_nodup, hrem, List.filter_filter]
          apply List.filter_congr
          intro t htA
          by_cases h1 : t ∈ path <;> by_cases h2 : t = pickBest cur c cs <;>
            simp [h1, h2]
        have hlen_erase : (remaining.erase (pickBest cur c cs)).length
            = remaining.length - 1 := List.length_erase_of_mem hbest_mem
        rw [ih g2 (path ++ [pickBest cur c cs]) (pickBest cur c cs)
          (remaining.erase (pickBest cur c cs)) hinv (by omega) (by omega)]
        simp

lemma find?_all_min_foldl {α β : Type} [LinearOrder β] (key : α → β)
    (c : α) (cs : List α) (q : α → Bool)
    (hq : ∀ t, q t = true ↔ ∀ u ∈ c :: cs, key t ≤ key u)
    (step : α → α → α) (hstep : ∀ b t, step b t = if key t < key b then t else b) :
    (c :: cs).find? q = some (cs.foldl step c) := by
  have hle := foldl_min_le key step hstep cs c
  have hfirst := foldl_min_first key step hstep cs c
  have hmin : ∀ u ∈ c :: cs, key (cs.foldl step c) ≤ key u := by
    intro u hu
    rcases List.mem_cons.mp hu with hu | hu
    · subst hu; exact hle.1
    · exact hle.2 u hu
  have hqm : q (cs.foldl step c) = true := (hq _).mpr hmin
  rcases hfirst with h | ⟨l₁, l₂, hds, hlt, hall⟩
  · rw [h] at hqm ⊢
    exact List.find?_cons_of_pos _ hqm
  · have hdecomp : c :: cs = (c :: l₁) ++ (cs.foldl step c) :: l₂ := by
      rw [List.cons_append, ← hds]
    rw [hdecomp]
    apply find?_of_first
    · intro u hu
      apply Bool.eq_false_iff.mpr
      intro hcontra
      have hmem : cs.foldl step c ∈ c :: cs := by
        rw [hdecomp]
        simp
      have hthis := (hq u).mp hcontra _ hmem
      have hult : key (cs.foldl step c) < key u := by
        rcases List.mem_cons.mp hu with hu | hu
        · subst hu; exact hlt
        · exact hall u hu
      exact absurd hthis (not_le.mpr hult)
    · exact hqm

lemma specPathScore_eq : ∀ p : List Track, specPathScore p = calculatePathScore p := by
  intro p
  match p with
  | [] => rfl
  | [a] => rfl
  | a :: b :: rest =>
    have ih := specPathScore_eq (b :: rest)
    unfold specPathScore calculatePathScore
    simp only [List.tail_cons, List.zip_cons_cons, List.map_cons, List.sum_cons]
    unfold specPathScore at ih
    simp only [List.tail_cons] at ih
    rw [ih]
    have habs : bpmDiff a b * bpmDiff a b = (bpmValue a - bpmValue b) ^ 2 := by
      unfold bpmDiff
      rw [absQ_eq_abs, abs_mul_abs_self, sq]
    rw [habs]

lemma refGreedyPath_eq_greedyPath (A : List Track) (s : Track)
    (hids : (A.map (fun t => t.id)).Nodup) (hs : s ∈ A) :
    refGreedyPath s A = greedyPath s A := by
  have hA : A.Nodup := List.Nodup.of_map _ hids
  have hfilters : A.filter (fun t => ¬ t.id = s.id)
      = A.filter (fun t => ¬ t ∈ [s]) := by
    apply List.filter_congr
    intro t htA
    by_cases h : t = s
    · subst h; simp
    · have hid : ¬ t.id = s.id := fun hid => h (eq_of_mem_of_id_eq A hids t htA s hs hid)
      simp [h, hid]
  unfold refGreedyPath greedyPath
  rw [refGreedyAux_eq_greedyLoop A hA
    ((A.filter (fun t => ¬ t.id = s.id)).length) A.length [s] s
    (A.filter (fun t => ¬ t.id = s.id)) hfilters le_rfl
    (List.length_filter_le _ _)]
  simp

/-- C1: with at least two analyzed tracks (and the data-model invariant of
pairwise-distinct ids), the ordered result of `findOptimalOrder` is exactly
the path chosen by the claim's reference algorithm: greedy paths from every
seed with smallest-BPM-difference, first-encountered-wins selection; then
the first lowest-score path among those covering all analyzed tracks, or
else the longest partial path with equal lengths tied by lower score. -/
theorem greedy_reference_equivalence (tracks : List Track)
    (hids : (tracks.map (fun t => t.id)).Nodup)
    (h2 : 2 ≤ (tracks.filter isTrackAnalyzed).length) :
    (findOptimalOrder tracks).orderedTracks
      = refBestPath (tracks.filter isTrackAnalyzed) := by
  have hAids : ((tracks.filter isTrackAnalyzed).map (fun t => t.id)).Nodup :=
    hids.sublist ((tracks.filter_sublist).map _)
  have hAnd : (tracks.filter isTrackAnalyzed).Nodup := List.Nodup.of_map _ hAids
  have h0 : ¬ (tracks.filter isTrackAnalyzed).length = 0 := by omega
  have h1 : ¬ (tracks.filter isTrackAnalyzed).length = 1 := by omega
  unfold findOptimalOrder
  dsimp only
  rw [if_neg h0, if_neg h1]
  dsimp only
  set A := tracks.filter isTrackAnalyzed with hA
  have hmapfold : A.foldl
      (fun st startTrack => searchStep A.length st (greedyPath startTrack A)) ⟨none, []⟩
      = (A.map (fun s => greedyPath s A)).foldl (searchStep A.length) ⟨none, []⟩ :=
    (List.foldl_map (fun s => greedyPath s A) (searchStep A.length) A ⟨none, []⟩).symm
  rw [hmapfold]
  set P := A.map (fun s => greedyPath s A) with hP
  obtain ⟨hCdec, hPdec⟩ := foldl_searchStep_decompose A.length P ⟨none, []⟩
  have hPfacts : ∀ p ∈ P, ∃ s ∈ A, p = greedyPath s A := by
    intro p hp
    rw [hP] at hp
    rcases List.mem_map.mp hp with ⟨s, hs, hsp⟩
    exact ⟨s, hs, hsp.symm⟩
  have hPne : ∀ p ∈ P, p ≠ [] := by
    intro p hp
    rcases hPfacts p hp with ⟨s, _, hsp⟩
    rw [hsp]
    exact greedyPath_ne_nil s A
  have hPsub : ∀ p ∈ P, p ⊆ A := by
    intro p hp
    rcases hPfacts p hp with ⟨s, hs, hsp⟩
    rw [hsp]
    exact greedyPath_subset s A hs
  have hPnd : ∀ p ∈ P, p.Nodup := by
    intro p hp
    rcases hPfacts p hp with ⟨s, _, hsp⟩
    rw [hsp]
    exact greedyPath_nodup s A hAnd
  have hPlen : ∀ p ∈ P, p.length ≤ A.length := fun p hp =>
    nodup_length_le (hPnd p hp) (hPsub p hp)
  unfold refBestPath
  dsimp only
  rw [show A.map (fun seed => refGreedyPath seed A) = P from by
    rw [hP]
    exact List.map_congr_left (fun s hs => refGreedyPath_eq_greedyPath A s hAids hs)]
  simp only [specPathScore_eq]
  rw [show P.filter (fun p => A.all (fun t => t ∈ p))
      = P.filter (fun p => p.length = A.length) from by
    apply List.filter_congr
    intro p hp
    have hiff : (∀ t ∈ A, t ∈ p) ↔ p.length = A.length := by
      constructor
      · intro hcov
        exact le_antisymm (hPlen p hp) (nodup_length_le hAnd (fun t ht => hcov t ht))
      · intro hlen t ht
        exact subset_of_nodup_of_length_le (hPsub p hp) (hPnd p hp) hAnd
          (le_of_eq hlen.symm) ht
    rw [Bool.eq_iff_iff]
    simp only [List.all_eq_true, decide_eq_true_eq]
    exact hiff]
  cases hcp : P.filter (fun p => p.length = A.length) with
  | cons c cs =>
    have hsome : (P.foldl (searchStep A.length) ⟨none, []⟩).bestComplete
        = some (cs.foldl (fun best p =>
              if calculatePathScore p < calculatePathScore best then p else best) c,
            calculatePathScore (cs.foldl (fun best p =>
              if calculatePathScore p < calculatePathScore best then p else best) c)) := by
      rw [hCdec, hcp, List.foldl_cons]
      have hcc : completeStep none c = some (c, calculatePathScore c) := rfl
      rw [hcc, completeFold_aux]
    rw [hsome]
    dsimp only
    rw [find?_all_min_foldl calculatePathScore c cs
      (fun p => (c :: cs).all (fun q => calculatePathScore p ≤ calculatePathScore q))
      (by
        intro t
        simp only [List.all_eq_true, decide_eq_true_eq])
      (fun best p => if calculatePathScore p < calculatePathScore best then p else best)
      (fun b t => rfl)]
  | nil =>
    have hnone : (P.foldl (searchStep A.length) ⟨none, []⟩).bestComplete = none := by
      rw [hCdec, hcp]
      rfl
    rw [hnone, hPdec]
    have hallne : ∀ p ∈ P, ¬ (p.length = A.length) := by
      intro p hp
      have := List.filter_eq_nil_iff.mp hcp p hp
      simpa using this
    have hfeq : P.filter (fun p => ¬ p.length = A.length) = P := by
      apply List.filter_eq_self.mpr
      intro p hp
      simpa using hallne p hp
    rw [hfeq]
    have hPne' : P ≠ [] := by
      rw [hP]
      intro hcontra
      rw [List.map_eq_nil_iff] at hcontra
      rw [hcontra] at h2
      simp at h2
    obtain ⟨p₀, ps, hPcons⟩ := List.exists_cons_of_ne_nil hPne'
    rw [hPcons]
    have hp₀ne : p₀ ≠ [] := hPne p₀ (by rw [hPcons]; exact List.mem_cons_self _ _)
    have hp₀len : 0 < p₀.length := List.length_pos.mpr hp₀ne
    have hfirststep : partialStep [] p₀ = p₀ := by
      unfold partialStep
      rw [if_pos (by simpa using hp₀len)]
    rw [List.foldl_cons, hfirststep]
    have hcongr : ps.foldl partialStep p₀ = ps.foldl (fun b p =>
        if toLex (OrderDual.toDual p.length, calculatePathScore p)
            < toLex (OrderDual.toDual b.length, calculatePathScore b) then p else b) p₀ := by
      apply foldl_congr_mem
      intro b p hp
      have hpne : p ≠ [] := hPne p (by rw [hPcons]; exact List.mem_cons_of_mem _ hp)
      have hplen : 0 < p.length := List.length_pos.mpr hpne
      have hlt : (toLex (OrderDual.toDual p.length, calculatePathScore p)
          < toLex (OrderDual.toDual b.length, calculatePathScore b))
          ↔ (b.length < p.length ∨
            (p.length = b.length ∧ calculatePathScore p < calculatePathScore b)) := by
        rw [Prod.Lex.lt_iff]
        simp [OrderDual.toDual_lt_toDual]
      unfold partialStep
      by_cases h1 : p.length > b.length
      · rw [if_pos h1, if_pos (hlt.mpr (Or.inl h1))]
      · by_cases hq2 : p.length = b.length
        · rw [if_neg h1, if_pos ⟨hq2, hplen⟩]
          by_cases h3 : calculatePathScore p < calculatePathScore b
          · rw [if_pos h3, if_pos (hlt.mpr (Or.inr ⟨hq2, h3⟩))]
          · rw [if_neg h3, if_neg (by
              intro hc
              rcases hlt.mp hc with hc | ⟨_, hc⟩
              · omega
              · exact h3 hc)]
        · rw [if_neg h1, if_neg (fun hc => hq2 hc.1), if_neg (by
            intro hc
            rcases hlt.mp hc with hc | ⟨hc, _⟩
            · exact h1 hc
            · exact hq2 hc)]
    rw [hcongr]
    rw [find?_all_min_foldl
      (fun p : List Track => toLex (OrderDual.toDual p.length, calculatePathScore p))
      p₀ ps
      (fun p => (p₀ :: ps).all (fun q => q.length < p.length ∨
        (q.length = p.length ∧ calculatePathScore p ≤ calculatePathScore q)))
      (by
        intro t
        simp only [List.all_eq_true, decide_eq_true_eq]
        constructor
        · intro h u hu
          rcases h u hu with h' | ⟨hl, hs⟩
          · rw [Prod.Lex.le_iff]
            simp only [OrderDual.toDual_lt_toDual]
            exact Or.inl h'
          · rw [Prod.Lex.le_iff]
            simp only [OrderDual.toDual_lt_toDual, OrderDual.toDual_inj]
            exact Or.inr ⟨hl.symm, hs⟩
        · intro h u hu
          have := h u hu
          rw [Prod.Lex.le_iff] at this
          simp only [OrderDual.toDual_lt_toDual, OrderDual.toDual_inj] at this
          rcases this with h' | ⟨hl, hs⟩
          · exact Or.inl h'
          · exact Or.inr ⟨hl.symm, hs⟩)
      (fun b p =>
        if toLex (OrderDual.toDual p.length, calculatePathScore p)
            < toLex (OrderDual.toDual b.length, calculatePathScore b) then p else b)
      (fun b t => rfl)]
    simp

/-! ### Compatible-group discovery (C10) -/

lemma passStep_ch_mono (st : List Track × List String × Bool) (c : Track)
    (h : st.2.2 = true) : (passStep st c).2.2 = true := by
  unfold passStep
  split_ifs <;> simp [h]

lemma passFold_ch_mono :
    ∀ (l : List Track) (st : List Track × List String × Bool),
    st.2.2 = true → (l.foldl passStep st).2.2 = true := by
  intro l
  induction l with
  | nil => intro st h; exact h
  | cons a tl ih =>
    intro st h
    rw [List.foldl_cons]
    exact ih _ (passStep_ch_mono st a h)

lemma passFold_unchanged :
    ∀ (l : List Track) (g : List Track) (asg : List String),
    (l.foldl passStep (g, asg, false)).2.2 = false →
    l.foldl passStep (g, asg, false) = (g, asg, false) ∧
    ∀ c ∈ l, ¬ c.id ∈ asg → ¬ ∃ t ∈ g, isTransitionCompatible t c = true := by
  intro l
  induction l with
  | nil => intro g asg _; exact ⟨rfl, by simp⟩
  | cons a tl ih =>
    intro g asg h
    rw [List.foldl_cons] at h ⊢
    by_cases h1 : a.id ∈ asg
    · have hstep : passStep (g, asg, false) a = (g, asg, false) := by
        unfold passStep
        dsimp only
        rw [if_pos h1]
      rw [hstep] at h ⊢
      obtain ⟨he, hfix⟩ := ih g asg h
      refine ⟨he, ?_⟩
      intro c hc hcn
      rcases List.mem_cons.mp hc with hc | hc
      · subst hc; exact absurd h1 hcn
      · exact hfix c hc hcn
    · by_cases h2 : g.any (fun gt => isTransitionCompatible gt a) = true
      · have hstep : passStep (g, asg, false) a = (g ++ [a], a.id :: asg, true) := by
          unfold passStep
          dsimp only
          rw [if_neg h1, if_pos h2]
        rw [hstep] at h
        exact absurd (passFold_ch_mono tl (g ++ [a], a.id :: asg, true) rfl) (by simp [h])
      · have hstep : passStep (g, asg, false) a = (g, asg, false) := by
          unfold passStep
          dsimp only
          rw [if_neg h1, if_neg h2]
        rw [hstep] at h ⊢
        obtain ⟨he, hfix⟩ := ih g asg h
        refine ⟨he, ?_⟩
        intro c hc hcn
        rcases List.mem_cons.mp hc with hc | hc
        · subst hc
          rintro ⟨t, ht, hR⟩
          exact h2 (List.any_eq_true.mpr ⟨t, ht, hR⟩)
        · exact hfix c hc hcn

lemma passFold_spec (s : Track) :
    ∀ (l : List Track) (g : List Track) (asg : List String) (ch₀ : Bool),
    (∀ t ∈ g, Relation.ReflTransGen
      (fun x y => isTransitionCompatible x y = true) s t) →
    asg.Nodup →
    ∃ extra,
      (l.foldl passStep (g, asg, ch₀)).1 = g ++ extra ∧
      (l.foldl passStep (g, asg, ch₀)).2.1
        = (extra.map (fun t => t.id)).reverse ++ asg ∧
      (∀ c ∈ extra, c ∈ l ∧ ¬ c.id ∈ asg) ∧
      (∀ t ∈ g ++ extra, Relation.ReflTransGen
        (fun x y => isTransitionCompatible x y = true) s t) ∧
      ((l.foldl passStep (g, asg, ch₀)).2.1).Nodup ∧
      ((l.foldl passStep (g, asg, ch₀)).2.2 = ch₀ ∨ extra ≠ []) := by
  intro l
  induction l with
  | nil =>
    intro g asg ch₀ hconn hnd
    exact ⟨[], by simp, by simp, by simp, by simpa using hconn, by simpa using hnd,
      Or.inl rfl⟩
  | cons a tl ih =>
    intro g asg ch₀ hconn hnd
    rw [List.foldl_cons]
    by_cases h1 : a.id ∈ asg
    · have hstep : passStep (g, asg, ch₀) a = (g, asg, ch₀) := by
        unfold passStep
        dsimp only
        rw [if_pos h1]
      rw [hstep]
      obtain ⟨extra, e1, e2, e3, e4, e5, e6⟩ := ih g asg ch₀ hconn hnd
      exact ⟨extra, e1, e2,
        fun c hc => ⟨List.mem_cons_of_mem a (e3 c hc).1, (e3 c hc).2⟩, e4, e5, e6⟩
    · by_cases h2 : g.any (fun gt => isTransitionCompatible gt a) = true
      · have hstep : passStep (g, asg, ch₀) a = (g ++ [a], a.id :: asg, true) := by
          unfold passStep
          dsimp only
          rw [if_neg h1, if_pos h2]
        rw [hstep]
        have hconna : ∀ t ∈ g ++ [a], Relation.ReflTransGen
            (fun x y => isTransitionCompatible x y = true) s t := by
          intro t ht
          rcases List.mem_append.mp ht with ht | ht
          · exact hconn t ht
          · simp only [List.mem_singleton] at ht
            subst ht
            rcases List.any_eq_true.mp h2 with ⟨gt, hgt, hR⟩
            exact Relation.ReflTransGen.tail (hconn gt hgt) hR
        obtain ⟨extra, e1, e2, e3, e4, e5, e6⟩ :=
          ih (g ++ [a]) (a.id :: asg) true hconna (List.nodup_cons.mpr ⟨h1, hnd⟩)
        refine ⟨a :: extra, ?_, ?_, ?_, ?_, e5, Or.inr (by simp)⟩
        · rw [e1, List.append_assoc]
          rfl
        · rw [e2]
          simp
        · intro c hc
          rcases List.mem_cons.mp hc with hc | hc
          · subst hc
            exact ⟨List.mem_cons_self _ _, h1⟩
          · obtain ⟨hcl, hcn⟩ := e3 c hc
            exact ⟨List.mem_cons_of_mem a hcl,
              fun hmem => hcn (List.mem_cons_of_mem _ hmem)⟩
        · intro t ht
          apply e4
          rw [List.append_assoc]
          simpa using ht
      · have hstep : passStep (g, asg, ch₀) a = (g, asg, ch₀) := by
          unfold passStep
          dsimp only
          rw [if_neg h1, if_neg h2]
        rw [hstep]
        obtain ⟨extra, e1, e2, e3, e4, e5, e6⟩ := ih g asg ch₀ hconn hnd
        exact ⟨extra, e1, e2,
          fun c hc => ⟨List.mem_cons_of_mem a (e3 c hc).1, (e3 c hc).2⟩, e4, e5, e6⟩

lemma unassigned_mono (A : List Track) (asg asg' : List String)
    (h : ∀ x ∈ asg, x ∈ asg') :
    unassignedCount A asg' ≤ unassignedCount A asg := by
  unfold unassignedCount
  simp only [decide_not]
  induction A with
  | nil => simp
  | cons a tl ih =>
    rw [List.filter_cons, List.filter_cons]
    by_cases h1 : a.id ∈ asg'
    · by_cases h2 : a.id ∈ asg <;> simp [h1, h2] <;> omega
    · have h2 : ¬ a.id ∈ asg := fun hc => h1 (h _ hc)
      simp [h1, h2]
      omega

lemma unassigned_strict (A : List Track) (asg asg' : List String)
    (h : ∀ x ∈ asg, x ∈ asg') (c : Track) (hc : c ∈ A)
    (hcn : ¬ c.id ∈ asg) (hcy : c.id ∈ asg') :
    unassignedCount A asg' < unassignedCount A asg := by
  unfold unassignedCount
  simp only [decide_not]
  induction A with
  | nil => simp at hc
  | cons a tl ih =>
    rw [List.filter_cons, List.filter_cons]
    rcases List.mem_cons.mp hc with hceq | hctl
    · have hmono := unassigned_mono tl asg asg' h
      unfold unassignedCount at hmono
      simp only [decide_not] at hmono
      rw [← hceq]
      simp [hcy, hcn]
      omega
    · have hih := ih hctl
      by_cases h1 : a.id ∈ asg'
      · by_cases h2 : a.id ∈ asg <;> simp [h1, h2] <;> omega
      · have h2 : ¬ a.id ∈ asg := fun hcon => h1 (h _ hcon)
        simp [h1, h2]
        omega

lemma expandLoop_spec (A : List Track) (s : Track) :
    ∀ (fuel : ℕ) (g : List Track) (asg : List String),
    unassignedCount A asg < fuel →
    (∀ t ∈ g, Relation.ReflTransGen
      (fun x y => isTransitionCompatible x y = true) s t) →
    asg.Nodup →
    ∃ extra,
      (expandLoop fuel A g asg).1 = g ++ extra ∧
      (expandLoop fuel A g asg).2 = (extra.map (fun t => t.id)).reverse ++ asg ∧
      (∀ c ∈ extra, c ∈ A ∧ ¬ c.id ∈ asg) ∧
      (∀ t ∈ g ++ extra, Relation.ReflTransGen
        (fun x y => isTransitionCompatible x y = true) s t) ∧
      ((expandLoop fuel A g asg).2).Nodup ∧
      (∀ c ∈ A, ¬ c.id ∈ (expandLoop fuel A g asg).2 →
        ¬ ∃ t ∈ (expandLoop fuel A g asg).1, isTransitionCompatible t c = true) := by
  intro fuel
  induction fuel with
  | zero =>
    intro g asg hμ _ _
    exact absurd hμ (Nat.not_lt_zero _)
  | succ m ih =>
    intro g asg hμ hconn hnd
    obtain ⟨extra₁, e1, e2, e3, e4, e5, e6⟩ := passFold_spec s A g asg false hconn hnd
    rw [expandLoop]
    rcases hpass : passOnce A g asg with ⟨g1, asg1, ch⟩
    have hpass' : A.foldl passStep (g, asg, false) = (g1, asg1, ch) := hpass
    rw [hpass'] at e1 e2 e5 e6
    dsimp only at e1 e2 e5 e6 ⊢
    cases ch with
    | false =>
      obtain ⟨heq, hfix⟩ := passFold_unchanged A g asg (by rw [hpass'])
      rw [hpass'] at heq
      injection heq with heq1 heq2
      injection heq2 with heq2 heq3
      subst heq1
      subst heq2
      refine ⟨[], by simp, by simp, by simp, by simpa using hconn, by simpa using hnd, ?_⟩
      intro c hc hcn
      exact hfix c hc hcn
    | true =>
      have hne : extra₁ ≠ [] := by
        rcases e6 with e6 | e6
        · simp at e6
        · exact e6
      obtain ⟨c₀, hc₀⟩ := List.exists_mem_of_ne_nil extra₁ hne
      have hmono : ∀ x ∈ asg, x ∈ asg1 := by
        rw [e2]
        intro x hx
        exact List.mem_append_right _ hx
      have hstrict : unassignedCount A asg1 < unassignedCount A asg := by
        apply unassigned_strict A asg asg1 hmono c₀ (e3 c₀ hc₀).1 (e3 c₀ hc₀).2
        rw [e2]
        apply List.mem_append_left
        rw [List.mem_reverse]
        exact List.mem_map_of_mem _ hc₀
      have hconn1 : ∀ t ∈ g1, Relation.ReflTransGen
          (fun x y => isTransitionCompatible x y = true) s t := by
        rw [e1]
        exact e4
      obtain ⟨extra₂, f1, f2, f3, f4, f5, f6⟩ := ih g1 asg1 (by omega) hconn1 e5
      rw [if_pos rfl]
      refine ⟨extra₁ ++ extra₂, ?_, ?_, ?_, ?_, f5, f6⟩
      · rw [f1, e1, List.append_assoc]
      · rw [f2, e2]
        simp [List.append_assoc]
      · intro c hc
        rcases List.mem_append.mp hc with hc | hc
        · exact e3 c hc
        · obtain ⟨hcl, hcn⟩ := f3 c hc
          refine ⟨hcl, fun hmem => hcn (hmono _ hmem)⟩
      · intro t ht
        apply f4
        rw [e1, List.append_assoc]
        exact ht

lemma compat_symm_prop {x y : Track} (h : isTransitionCompatible x y = true) :
    isTransitionCompatible y x = true :=
  (isTransitionCompatible_comm y x).trans h

lemma groupFold_spec (A : List Track) (hAids : (A.map (fun t => t.id)).Nodup) :
    ∀ (l : List Track), (∀ x ∈ l, x ∈ A) → ∀ (st : List (List Track) × List String),
    GroupInv A st →
    GroupInv A (l.foldl (groupStep A) st) ∧
    (∀ t ∈ l, t.id ∈ (l.foldl (groupStep A) st).2) ∧
    (∀ x ∈ st.2, x ∈ (l.foldl (groupStep A) st).2) := by
  intro l
  induction l with
  | nil =>
    intro _ st hInv
    exact ⟨hInv, by simp, fun x hx => hx⟩
  | cons a tl ih =>
    intro hsub st hInv
    rw [List.foldl_cons]
    have haA : a ∈ A := hsub a (List.mem_cons_self a tl)
    have htlsub : ∀ x ∈ tl, x ∈ A := fun x hx => hsub x (List.mem_cons_of_mem a hx)
    by_cases h1 : a.id ∈ st.2
    · have hstep : groupStep A st a = st := by
        unfold groupStep
        rw [if_pos h1]
      rw [hstep]
      obtain ⟨hInv', hall, hmono⟩ := ih htlsub st hInv
      refine ⟨hInv', ?_, hmono⟩
      intro t ht
      rcases List.mem_cons.mp ht with ht | ht
      · subst ht
        exact hmono _ h1
      · exact hall t ht
    · obtain ⟨i0, i1, i2, i3, i4, i5, i6⟩ := hInv
      have hμ : unassignedCount A (a.id :: st.2) < A.length + 1 := by
        have := List.length_filter_le (fun t => ¬ t.id ∈ (a.id :: st.2)) A
        unfold unassignedCount
        omega
      have hconn0 : ∀ t ∈ [a], Relation.ReflTransGen
          (fun x y => isTransitionCompatible x y = true) a t := by
        intro t ht
        simp only [List.mem_singleton] at ht
        subst ht
        exact Relation.ReflTransGen.refl
      have hnd0 : (a.id :: st.2).Nodup := List.nodup_cons.mpr ⟨h1, i0⟩
      obtain ⟨extra, x1, x2, x3, x4, x5, x6⟩ :=
        expandLoop_spec A a (A.length + 1) [a] (a.id :: st.2) hμ hconn0 hnd0
      have hstep : groupStep A st a =
          (st.1 ++ [(expandLoop (A.length + 1) A [a] (a.id :: st.2)).1],
            (expandLoop (A.length + 1) A [a] (a.id :: st.2)).2) := by
        unfold groupStep
        rw [if_neg h1]
      rw [hstep]
      set gn := (expandLoop (A.length + 1) A [a] (a.id :: st.2)).1 with hgn
      set asgn := (expandLoop (A.length + 1) A [a] (a.id :: st.2)).2 with hasgn
      have hgn_eq : gn = a :: extra := by
        rw [x1]
        rfl
      have hgn_ids_notin : ∀ t ∈ gn, ¬ t.id ∈ st.2 := by
        intro t ht
        rw [hgn_eq] at ht
        rcases List.mem_cons.mp ht with ht | ht
        · subst ht; exact h1
        · intro hmem
          exact (x3 t ht).2 (List.mem_cons_of_mem _ hmem)
      have hasgn_mem : ∀ x, x ∈ asgn ↔
          x ∈ (extra.map (fun t => t.id)) ∨ x = a.id ∨ x ∈ st.2 := by
        intro x
        rw [x2]
        simp [List.mem_append, List.mem_reverse, List.mem_cons]
      have hInvNew : GroupInv A (st.1 ++ [gn], asgn) := by
        refine ⟨x5, ?_, ?_, ?_, ?_, ?_, ?_⟩
        · intro x
          rw [hasgn_mem x]
          simp only [List.flatten_append, List.flatten_cons, List.flatten_nil,
            List.append_nil, List.map_append, List.mem_append]
          rw [hgn_eq]
          simp only [List.map_cons, List.mem_cons]
          constructor
          · rintro (h | h | h)
            · exact Or.inr (Or.inr h)
            · exact Or.inr (Or.inl h)
            · exact Or.inl ((i1 x).mp h)
          · rintro (h | h | h)
            · exact Or.inr (Or.inr ((i1 x).mpr h))
            · exact Or.inr (Or.inl h)
            · exact Or.inl h
        · simp only [List.flatten_append, List.flatten_cons, List.flatten_nil,
            List.append_nil, List.map_append]
          have hgnids : (gn.map (fun t => t.id)).Nodup := by
            have h5 := x5
            rw [x2] at h5
            have hsubl : ((extra.map (fun t => t.id)).reverse ++ [a.id]).Nodup := by
              have : (extra.map (fun t => t.id)).reverse ++ (a.id :: st.2)
                  = ((extra.map (fun t => t.id)).reverse ++ [a.id]) ++ st.2 := by
                simp
              rw [this] at h5
              exact h5.of_append_left
            have hperm : List.Perm ((extra.map (fun t => t.id)).reverse ++ [a.id])
                (a.id :: extra.map (fun t => t.id)) := by
              have h1p : List.Perm ((extra.map (fun t => t.id)).reverse ++ [a.id])
                  ([a.id] ++ (extra.map (fun t => t.id)).reverse) :=
                List.perm_append_comm
              have h2p : List.Perm ((extra.map (fun t => t.id)).reverse)
                  (extra.map (fun t => t.id)) :=
                (extra.map (fun t => t.id)).reverse_perm
              exact h1p.trans (List.Perm.cons a.id h2p)
            rw [hgn_eq, List.map_cons]
            exact hperm.nodup hsubl
          apply List.Nodup.append i2 hgnids
          intro x hx hx2
          have hxin : x ∈ st.2 := (i1 x).mpr hx
          rcases List.mem_map.mp hx2 with ⟨t, ht, hid⟩
          exact hgn_ids_notin t ht (hid ▸ hxin)
        · intro g hg
          rcases List.mem_append.mp hg with hg | hg
          · exact i3 g hg
          · simp only [List.mem_singleton] at hg
            subst hg
            rw [hgn_eq]
            simp
        · intro t ht
          rw [List.flatten_append, List.flatten_cons, List.flatten_nil,
            List.append_nil] at ht
          rcases List.mem_append.mp ht with ht | ht
          · exact i4 t ht
          · rw [hgn_eq] at ht
            rcases List.mem_cons.mp ht with ht | ht
            · subst ht; exact haA
            · exact (x3 t ht).1
        · intro g hg t ht u hu hR
          rcases List.mem_append.mp hg with hg | hg
          · exact i5 g hg t ht u hu hR
          · simp only [List.mem_singleton] at hg
            subst hg
            by_cases humem : u.id ∈ asgn
            · have : u.id ∈ (st.1 ++ [gn]).flatten.map (fun t => t.id) := by
                rw [hasgn_mem u.id] at humem
                simp only [List.flatten_append, List.flatten_cons, List.flatten_nil,
                  List.append_nil, List.map_append, List.mem_append]
                rw [hgn_eq]
                simp only [List.map_cons, List.mem_cons]
                rcases humem with h | h | h
                · exact Or.inr (Or.inr h)
                · exact Or.inr (Or.inl h)
                · exact Or.inl ((i1 _).mp h)
              rcases List.mem_map.mp this with ⟨v, hv, hvid⟩
              have hvA : v ∈ A := by
                rw [List.flatten_append, List.flatten_cons, List.flatten_nil,
                  List.append_nil] at hv
                rcases List.mem_append.mp hv with hv | hv
                · exact i4 v hv
                · rw [hgn_eq] at hv
                  rcases List.mem_cons.mp hv with hv | hv
                  · subst hv; exact haA
                  · exact (x3 v hv).1
              have hveq : v = u := eq_of_mem_of_id_eq A hAids v hvA u hu hvid
              subst hveq
              rw [List.flatten_append, List.flatten_cons, List.flatten_nil,
                List.append_nil] at hv
              rcases List.mem_append.mp hv with hv | hv
              · exfalso
                rcases List.mem_flatten.mp hv with ⟨g', hg', hvg'⟩
                have htg' : t ∈ g' := i5 g' hg' v hvg' t
                  (by
                    rw [hgn_eq] at ht
                    rcases List.mem_cons.mp ht with ht | ht
                    · subst ht; exact haA
                    · exact (x3 t ht).1)
                  (compat_symm_prop hR)
                have : t.id ∈ st.2 := (i1 t.id).mpr
                  (List.mem_map_of_mem _ (List.mem_flatten_of_mem hg' htg'))
                exact hgn_ids_notin t ht this
              · exact hv
            · exfalso
              exact x6 u hu humem ⟨t, ht, hR⟩
        · intro g hg t ht u hu
          rcases List.mem_append.mp hg with hg | hg
          · exact i6 g hg t ht u hu
          · simp only [List.mem_singleton] at hg
            subst hg
            have hsymm : Symmetric (fun x y => isTransitionCompatible x y = true) :=
              fun x y h => compat_symm_prop h
            have hRTGsymm := Relation.ReflTransGen.symmetric hsymm
            have h1t := x4 t (by rw [hgn_eq] at ht; simpa using ht)
            have h1u := x4 u (by rw [hgn_eq] at hu; simpa using hu)
            exact Relation.ReflTransGen.trans (hRTGsymm h1t) h1u
      obtain ⟨hInv', hall, hmono⟩ := ih htlsub (st.1 ++ [gn], asgn) hInvNew
      refine ⟨hInv', ?_, ?_⟩
      · intro t ht
        rcases List.mem_cons.mp ht with ht | ht
        · subst ht
          apply hmono
          rw [hasgn_mem]
          exact Or.inr (Or.inl rfl)
        · exact hall t ht
      · intro x hx
        apply hmono
        rw [hasgn_mem]
        exact Or.inr (Or.inr hx)

/-- Closed instantiation of `greedy_reference_equivalence` on a two-track
batch of analyzed tracks. -/
theorem greedy_reference_equivalence_witness :
    (findOptimalOrder [⟨"a", some 128, some ⟨8, .B⟩⟩,
        ⟨"b", some 130, some ⟨9, .B⟩⟩]).orderedTracks
      = refBestPath ([⟨"a", some 128, some ⟨8, .B⟩⟩,
          ⟨"b", some 130, some ⟨9, .B⟩⟩].filter isTrackAnalyzed) :=
  greedy_reference_equivalence
    [⟨"a", some 128, some ⟨8, .B⟩⟩, ⟨"b", some 130, some ⟨9, .B⟩⟩]
    (by decide) (by decide)

/-- C10: under the data-model invariant of pairwise-distinct track ids,
`findCompatibleGroups` returns exactly the connected components of the
analyzed tracks under the legal-transition relation: the groups jointly
contain each analyzed track exactly once, unanalyzed tracks are excluded
entirely, every group is non-empty, every group is closed under
compatibility with any of its members, any two members of a group are
linked by a chain of legal transitions, and the groups are sorted by
descending size. -/
theorem compatible_groups_spec (tracks : List Track)
    (hids : (tracks.map (fun t => t.id)).Nodup) :
    List.Perm (findCompatibleGroups tracks).flatten (tracks.filter isTrackAnalyzed) ∧
    (∀ g ∈ findCompatibleGroups tracks, g ≠ []) ∧
    List.Pairwise (fun g g' => g'.length ≤ g.length) (findCompatibleGroups tracks) ∧
    (∀ g ∈ findCompatibleGroups tracks, ∀ t ∈ g, ∀ u ∈ tracks.filter isTrackAnalyzed,
      isTransitionCompatible t u = true → u ∈ g) ∧
    (∀ g ∈ findCompatibleGroups tracks, ∀ t ∈ g, ∀ u ∈ g,
      Relation.ReflTransGen (fun x y => isTransitionCompatible x y = true) t u) := by
  have hAids : ((tracks.filter isTrackAnalyzed).map (fun t => t.id)).Nodup :=
    hids.sublist ((tracks.filter_sublist).map _)
  have hAnd : (tracks.filter isTrackAnalyzed).Nodup := List.Nodup.of_map _ hAids
  unfold findCompatibleGroups
  dsimp only
  by_cases h0 : (tracks.filter isTrackAnalyzed).length = 0
  · rw [if_pos h0]
    have hA : tracks.filter isTrackAnalyzed = [] := List.length_eq_zero.mp h0
    rw [hA]
    exact ⟨by simp, by simp, by simp, by simp, by simp⟩
  · rw [if_neg h0]
    have hInv0 : GroupInv (tracks.filter isTrackAnalyzed) ([], []) := by
      refine ⟨?_, ?_, ?_, ?_, ?_, ?_, ?_⟩ <;> simp
    obtain ⟨hInv, hall, -⟩ := groupFold_spec (tracks.filter isTrackAnalyzed) hAids
      (tracks.filter isTrackAnalyzed) (fun x hx => hx) ([], []) hInv0
    set stF := (tracks.filter isTrackAnalyzed).foldl
      (groupStep (tracks.filter isTrackAnalyzed)) ([], []) with hstF
    obtain ⟨j0, j1, j2, j3, j4, j5, j6⟩ := hInv
    have hperm : List.Perm (stF.1.mergeSort (fun a b => b.length ≤ a.length)) stF.1 :=
      List.mergeSort_perm _ _
    have hAsub : ∀ t ∈ tracks.filter isTrackAnalyzed, t ∈ stF.1.flatten := by
      intro t ht
      have hid : t.id ∈ stF.2 := hall t ht
      have hidf : t.id ∈ stF.1.flatten.map (fun u => u.id) := (j1 _).mp hid
      rcases List.mem_map.mp hidf with ⟨v, hv, hvid⟩
      have hveq : v = t := eq_of_mem_of_id_eq (tracks.filter isTrackAnalyzed) hAids v
        (j4 v hv) t ht hvid
      rw [← hveq]
      exact hv
    have hflat_nodup : stF.1.flatten.Nodup := List.Nodup.of_map _ j2
    have hflatperm : List.Perm stF.1.flatten (tracks.filter isTrackAnalyzed) :=
      (List.perm_ext_iff_of_nodup hflat_nodup hAnd).mpr
        (fun t => ⟨fun h => j4 t h, fun h => hAsub t h⟩)
    refine ⟨(hperm.flatten).trans hflatperm, ?_, ?_, ?_, ?_⟩
    · intro g hg
      exact j3 g (hperm.mem_iff.mp hg)
    · have hsorted : List.Pairwise
          (fun a b : List Track => (decide (b.length ≤ a.length)) = true)
          (stF.1.mergeSort (fun a b => b.length ≤ a.length)) :=
        List.sorted_mergeSort
          (fun a b c hab hbc => by
            simp only [decide_eq_true_eq] at *
            omega)
          (fun a b => by
            simp only [Bool.or_eq_true, decide_eq_true_eq]
            omega)
          stF.1
      exact hsorted.imp (fun h => by simpa using h)
    · intro g hg t ht u hu hR
      exact j5 g (hperm.mem_iff.mp hg) t ht u hu hR
    · intro g hg
      exact j6 g (hperm.mem_iff.mp hg)

/-- Closed instantiation of `compatible_groups_spec` on a two-track batch
with one analyzed and one unanalyzed track. -/
theorem compatible_groups_spec_witness :
    (([⟨"a", some 128, some ⟨8, .B⟩⟩, ⟨"b", none, none⟩] : List Track).map
        (fun t => t.id)).Nodup ∧
      (∀ g ∈ findCompatibleGroups
          [⟨"a", some 128, some ⟨8, .B⟩⟩, ⟨"b", none, none⟩], g ≠ []) :=
  ⟨by decide,
    (compatible_groups_spec [⟨"a", some 128, some ⟨8, .B⟩⟩, ⟨"b", none, none⟩]
      (by decide)).2.1⟩

end MixFlow
